import Mathlib

/-!
# A shallow embedding of the AprilTag detection pipeline

This file embeds the data model and operations declared in `apriltag.h`
(the only source file of the repository) together with the behaviour of
the detection pipeline described by the design specification.  The
implementation files of the repository are not part of the source tree,
so every pipeline stage is modelled from the specification text (each
such definition carries a doc comment starting with `Modelled from the
spec:`); the declarations, types and the one inline function of
`apriltag.h` are embedded directly from the source.

Conventions:
* C `double`/`float` values are embedded as exact rationals (`ℚ`);
* C integers are embedded as `Nat`/`Int`;
* fallible operations return `Option`;
* the caller-facing detection entry point returns `none` exactly on the
  input-level precondition violations of §7 (zero-dimension image) and
  `some detections` otherwise.
-/

/-! ## Points and corner quadruples -/

/-- A point in image pixel coordinates (exact rationals stand in for the
C floating point coordinates). -/
abbrev Pt := ℚ × ℚ

/-- The four corner points of a quadrilateral in storage order, embedding
the `float p[4][2]` field of `struct quad` and the `double p[4][2]` field
of `apriltag_detection`. -/
structure P4 where
  p0 : Pt
  p1 : Pt
  p2 : Pt
  p3 : Pt
deriving DecidableEq, Repr

/-- Twice the signed area of the corner cycle `p0 p1 p2 p3` (shoelace
formula).  The corners are counter-clockwise (in the orientation
convention fixed by this embedding) exactly when this is positive. -/
def area2 (c : P4) : ℚ :=
  (c.p0.1 * c.p1.2 - c.p1.1 * c.p0.2) + (c.p1.1 * c.p2.2 - c.p2.1 * c.p1.2)
  + (c.p2.1 * c.p3.2 - c.p3.1 * c.p2.2) + (c.p3.1 * c.p0.2 - c.p0.1 * c.p3.2)

/-- Counter-clockwise predicate for a stored corner cycle: positive twice
signed area. -/
def ccwP4 (c : P4) : Prop := 0 < area2 c

/-- Reversal of the corner cycle (keeping `p0` first). -/
def rev4 (c : P4) : P4 := ⟨c.p0, c.p3, c.p2, c.p1⟩

/-- Cyclic rotation of the corner cycle by `r` positions. -/
def rotK (r : Nat) (c : P4) : P4 :=
  match r % 4 with
  | 0 => c
  | 1 => ⟨c.p1, c.p2, c.p3, c.p0⟩
  | 2 => ⟨c.p2, c.p3, c.p0, c.p1⟩
  | _ => ⟨c.p3, c.p0, c.p1, c.p2⟩

/-- Squared euclidean distance between two points. -/
def dist2 (a b : Pt) : ℚ := (a.1 - b.1) ^ 2 + (a.2 - b.2) ^ 2

theorem area2_rev4 (c : P4) : area2 (rev4 c) = - area2 c := by
  simp only [area2, rev4]
  ring

theorem area2_rotK (r : Nat) (c : P4) : area2 (rotK r c) = area2 c := by
  have h : r % 4 = 0 ∨ r % 4 = 1 ∨ r % 4 = 2 ∨ r % 4 = 3 := by omega
  rcases h with h | h | h | h <;> simp only [rotK, h, area2] <;> ring

theorem dist2_comm (a b : Pt) : dist2 a b = dist2 b a := by
  simp only [dist2]
  ring

/-! ## 3×3 matrices over ℚ

The repository delegates matrix work to the external dense-matrix
collaborator (`matd_t`, §6); only 3×3 matrices are used.  We embed them
explicitly so that every operation is executable. -/

/-- A homogeneous 3-vector. -/
structure Vec3 where
  x : ℚ
  y : ℚ
  z : ℚ
deriving DecidableEq, Repr

/-- A 3×3 rational matrix (embedding the 3×3 `matd_t` uses of the code). -/
structure Mat3 where
  m00 : ℚ
  m01 : ℚ
  m02 : ℚ
  m10 : ℚ
  m11 : ℚ
  m12 : ℚ
  m20 : ℚ
  m21 : ℚ
  m22 : ℚ
deriving DecidableEq, Repr

/-- The identity matrix. -/
def mat3Id : Mat3 := ⟨1, 0, 0, 0, 1, 0, 0, 0, 1⟩

/-- Matrix product. -/
def mat3Mul (A B : Mat3) : Mat3 :=
  ⟨A.m00 * B.m00 + A.m01 * B.m10 + A.m02 * B.m20,
   A.m00 * B.m01 + A.m01 * B.m11 + A.m02 * B.m21,
   A.m00 * B.m02 + A.m01 * B.m12 + A.m02 * B.m22,
   A.m10 * B.m00 + A.m11 * B.m10 + A.m12 * B.m20,
   A.m10 * B.m01 + A.m11 * B.m11 + A.m12 * B.m21,
   A.m10 * B.m02 + A.m11 * B.m12 + A.m12 * B.m22,
   A.m20 * B.m00 + A.m21 * B.m10 + A.m22 * B.m20,
   A.m20 * B.m01 + A.m21 * B.m11 + A.m22 * B.m21,
   A.m20 * B.m02 + A.m21 * B.m12 + A.m22 * B.m22⟩

/-- Matrix–vector product. -/
def matVec (A : Mat3) (v : Vec3) : Vec3 :=
  ⟨A.m00 * v.x + A.m01 * v.y + A.m02 * v.z,
   A.m10 * v.x + A.m11 * v.y + A.m12 * v.z,
   A.m20 * v.x + A.m21 * v.y + A.m22 * v.z⟩

/-- Determinant. -/
def mat3Det (A : Mat3) : ℚ :=
  A.m00 * (A.m11 * A.m22 - A.m12 * A.m21)
  - A.m01 * (A.m10 * A.m22 - A.m12 * A.m20)
  + A.m02 * (A.m10 * A.m21 - A.m11 * A.m20)

/-- Adjugate matrix. -/
def mat3Adj (A : Mat3) : Mat3 :=
  ⟨A.m11 * A.m22 - A.m12 * A.m21,
   -(A.m01 * A.m22 - A.m02 * A.m21),
   A.m01 * A.m12 - A.m02 * A.m11,
   -(A.m10 * A.m22 - A.m12 * A.m20),
   A.m00 * A.m22 - A.m02 * A.m20,
   -(A.m00 * A.m12 - A.m02 * A.m10),
   A.m10 * A.m21 - A.m11 * A.m20,
   -(A.m00 * A.m21 - A.m01 * A.m20),
   A.m00 * A.m11 - A.m01 * A.m10⟩

/-- Scalar multiple of a matrix. -/
def mat3Smul (s : ℚ) (A : Mat3) : Mat3 :=
  ⟨s * A.m00, s * A.m01, s * A.m02, s * A.m10, s * A.m11, s * A.m12,
   s * A.m20, s * A.m21, s * A.m22⟩

/-- Matrix inverse via the adjugate (the external matrix library's
`matd_inverse`, used for `Hinv`). -/
def mat3Inv (A : Mat3) : Mat3 := mat3Smul (mat3Det A)⁻¹ (mat3Adj A)

theorem mat3Mul_inv (A : Mat3) (h : mat3Det A ≠ 0) :
    mat3Mul A (mat3Inv A) = mat3Id := by
  cases A with
  | mk a b c d e f g i j =>
    simp only [mat3Det] at h
    simp only [mat3Mul, mat3Inv, mat3Smul, mat3Adj, mat3Det, mat3Id, Mat3.mk.injEq]
    refine ⟨?_, ?_, ?_, ?_, ?_, ?_, ?_, ?_, ?_⟩ <;> (field_simp; ring)

/-! ## Homography estimation (§4.5)

`quad.H` maps tag coordinates (`[-1,1]` at the corners, per `apriltag.h`)
to pixels; `apriltag_detection.H` maps the ideal corners
`(-1,1), (1,1), (1,-1), (-1,-1)` to the stored corners `p[0] .. p[3]`. -/

/-- Component-wise sum of 3-vectors. -/
def vadd (a b : Vec3) : Vec3 := ⟨a.x + b.x, a.y + b.y, a.z + b.z⟩

/-- Scalar multiple of a 3-vector. -/
def vsmul (s : ℚ) (a : Vec3) : Vec3 := ⟨s * a.x, s * a.y, s * a.z⟩

/-- Determinant of the matrix with columns `u`, `v`, `w`. -/
def det3c (u v w : Vec3) : ℚ :=
  u.x * (v.y * w.z - v.z * w.y) - v.x * (u.y * w.z - u.z * w.y)
  + w.x * (u.y * v.z - u.z * v.y)

/-- The matrix with columns `u`, `v`, `w`. -/
def colMat (u v w : Vec3) : Mat3 :=
  ⟨u.x, v.x, w.x, u.y, v.y, w.y, u.z, v.z, w.z⟩

/-- Cramer's rule for a 3×3 system: the stated coefficients recombine the
columns into the target vector whenever the column matrix is
nonsingular. -/
theorem cramer3 (u v w t : Vec3) (h : det3c u v w ≠ 0) :
    vadd (vsmul (det3c t v w / det3c u v w) u)
      (vadd (vsmul (det3c u t w / det3c u v w) v)
        (vsmul (det3c u v t / det3c u v w) w)) = t := by
  cases u with
  | mk ux uy uz =>
  cases v with
  | mk vx vy vz =>
  cases w with
  | mk wx wy wz =>
  cases t with
  | mk tx ty tz =>
    simp only [det3c] at h
    simp only [det3c, vadd, vsmul, Vec3.mk.injEq]
    refine ⟨?_, ?_, ?_⟩ <;> (field_simp; ring)

theorem matVec_mul (A B : Mat3) (v : Vec3) :
    matVec (mat3Mul A B) v = matVec A (matVec B v) := by
  cases A
  cases B
  cases v
  simp only [matVec, mat3Mul, Vec3.mk.injEq]
  refine ⟨?_, ?_, ?_⟩ <;> ring

/-- The constant matrix sending the projective basis vectors
`e1, e2, e3, e1+e2+e3` to (scalar multiples of) the homogeneous ideal tag
corners `(-1,1), (1,1), (1,-1), (-1,-1)` in order. -/
def idealBasisMat : Mat3 := ⟨-1, -1, 1, 1, -1, -1, 1, -1, 1⟩

/-- Inverse of `idealBasisMat` (a fixed rational matrix). -/
def idealBasisInv : Mat3 := mat3Inv idealBasisMat

/-- Modelled from the spec: the homography estimator of §4.5 (function
`quad_update_homographies` of the missing `apriltag.c`, via the external
matrix library's linear solve).  Solves the linear system mapping the
ideal corners `(-1,1), (1,1), (1,-1), (-1,-1)` to the four given pixel
corners by the projective-basis method with Cramer's rule, returns the
homography together with its matrix inverse, and fails (the quad is
dropped) exactly when the system is singular — degenerate or collinear
corners — re-checking the determinant of the result defensively. -/
def homography_compute (c : P4) : Option (Mat3 × Mat3) :=
  let t0 : Vec3 := ⟨c.p0.1, c.p0.2, 1⟩
  let t1 : Vec3 := ⟨c.p1.1, c.p1.2, 1⟩
  let t2 : Vec3 := ⟨c.p2.1, c.p2.2, 1⟩
  let t3 : Vec3 := ⟨c.p3.1, c.p3.2, 1⟩
  let d0 := det3c t0 t1 t2
  if d0 = 0 then none else
  let a := det3c t3 t1 t2 / d0
  let b := det3c t0 t3 t2 / d0
  let g := det3c t0 t1 t3 / d0
  if a = 0 ∨ b = 0 ∨ g = 0 then none else
  let H := mat3Mul (colMat (vsmul a t0) (vsmul b t1) (vsmul g t2)) idealBasisInv
  if mat3Det H = 0 then none else
  some (H, mat3Inv H)

/-- Apply a homography to an affine point, normalizing the homogeneous
result; fails when the point is mapped to infinity. -/
def projectPoint (H : Mat3) (u v : ℚ) : Option Pt :=
  let w := matVec H ⟨u, v, 1⟩
  if w.z = 0 then none else some (w.x / w.z, w.y / w.z)

theorem matVec_colMat (u v w s : Vec3) :
    matVec (colMat u v w) s = vadd (vsmul s.x u) (vadd (vsmul s.y v) (vsmul s.z w)) := by
  cases u
  cases v
  cases w
  cases s
  simp only [matVec, colMat, vadd, vsmul, Vec3.mk.injEq]
  refine ⟨?_, ?_, ?_⟩ <;> ring

theorem projectPoint_eq (H : Mat3) (u v : ℚ) (w : Vec3)
    (hw : matVec H ⟨u, v, 1⟩ = w) (hz : w.z ≠ 0) :
    projectPoint H u v = some (w.x / w.z, w.y / w.z) := by
  simp only [projectPoint, hw]
  rw [if_neg hz]

theorem vsmul_one (a : Vec3) : vsmul 1 a = a := by
  cases a
  simp [vsmul]

theorem homography_compute_spec (c : P4) (H Hinv : Mat3)
    (h : homography_compute c = some (H, Hinv)) :
    projectPoint H (-1) 1 = some c.p0 ∧ projectPoint H 1 1 = some c.p1 ∧
    projectPoint H 1 (-1) = some c.p2 ∧ projectPoint H (-1) (-1) = some c.p3 ∧
    mat3Mul H Hinv = mat3Id := by
  simp only [homography_compute] at h
  split_ifs at h with hd0 habg hdet
  rw [Option.some.injEq, Prod.mk.injEq] at h
  obtain ⟨hH, hHinv⟩ := h
  push_neg at habg
  obtain ⟨ha, hb, hg⟩ := habg
  subst hH
  subst hHinv
  have eb : ∀ vx vy r1 r2 r3 : ℚ,
      ((-1) / 2 * vx + 0 * vy + 1 / 2 * 1 = r1) →
      ((-1) / 2 * vx + (-1) / 2 * vy + 0 * 1 = r2) →
      (0 * vx + (-1) / 2 * vy + 1 / 2 * 1 = r3) →
      matVec idealBasisInv ⟨vx, vy, 1⟩ = ⟨r1, r2, r3⟩ := by
    intro vx vy r1 r2 r3 h1 h2 h3
    rw [show idealBasisInv =
        ⟨-1 / 2, 0, 1 / 2, -1 / 2, -1 / 2, 0, 0, -1 / 2, 1 / 2⟩ from by
      simp only [idealBasisInv, idealBasisMat, mat3Inv, mat3Det, mat3Adj,
        mat3Smul, Mat3.mk.injEq]
      norm_num]
    simp only [matVec, Vec3.mk.injEq]
    refine ⟨?_, ?_, ?_⟩
    · rw [show (-1 : ℚ) / 2 = (-1) / 2 from rfl] at h1
      exact h1
    · exact h2
    · exact h3
  have e1 : matVec idealBasisInv ⟨-1, 1, 1⟩ = ⟨1, 0, 0⟩ := eb _ _ _ _ _
    (by norm_num) (by norm_num) (by norm_num)
  have e2 : matVec idealBasisInv ⟨1, 1, 1⟩ = ⟨0, -1, 0⟩ := eb _ _ _ _ _
    (by norm_num) (by norm_num) (by norm_num)
  have e3 : matVec idealBasisInv ⟨1, -1, 1⟩ = ⟨0, 0, 1⟩ := eb _ _ _ _ _
    (by norm_num) (by norm_num) (by norm_num)
  have e4 : matVec idealBasisInv ⟨-1, -1, 1⟩ = ⟨1, 1, 1⟩ := eb _ _ _ _ _
    (by norm_num) (by norm_num) (by norm_num)
  have hc := cramer3 ⟨c.p0.1, c.p0.2, 1⟩ ⟨c.p1.1, c.p1.2, 1⟩ ⟨c.p2.1, c.p2.2, 1⟩
    ⟨c.p3.1, c.p3.2, 1⟩ hd0
  set a := det3c ⟨c.p3.1, c.p3.2, 1⟩ ⟨c.p1.1, c.p1.2, 1⟩ ⟨c.p2.1, c.p2.2, 1⟩ /
    det3c ⟨c.p0.1, c.p0.2, 1⟩ ⟨c.p1.1, c.p1.2, 1⟩ ⟨c.p2.1, c.p2.2, 1⟩ with hadef
  set b := det3c ⟨c.p0.1, c.p0.2, 1⟩ ⟨c.p3.1, c.p3.2, 1⟩ ⟨c.p2.1, c.p2.2, 1⟩ /
    det3c ⟨c.p0.1, c.p0.2, 1⟩ ⟨c.p1.1, c.p1.2, 1⟩ ⟨c.p2.1, c.p2.2, 1⟩ with hbdef
  set g := det3c ⟨c.p0.1, c.p0.2, 1⟩ ⟨c.p1.1, c.p1.2, 1⟩ ⟨c.p3.1, c.p3.2, 1⟩ /
    det3c ⟨c.p0.1, c.p0.2, 1⟩ ⟨c.p1.1, c.p1.2, 1⟩ ⟨c.p2.1, c.p2.2, 1⟩ with hgdef
  refine ⟨?_, ?_, ?_, ?_, mat3Mul_inv _ hdet⟩
  · refine Eq.trans (projectPoint_eq _ _ _ ⟨a * c.p0.1, a * c.p0.2, a⟩ ?_ ha) ?_
    · rw [matVec_mul, e1, matVec_colMat]
      simp only [vsmul, vadd]
      rw [Vec3.mk.injEq]
      refine ⟨by ring, by ring, by ring⟩
    · rw [mul_div_cancel_left₀ _ ha, mul_div_cancel_left₀ _ ha]
  · refine Eq.trans (projectPoint_eq _ _ _ ⟨-(b * c.p1.1), -(b * c.p1.2), -b⟩ ?_
      (neg_ne_zero.mpr hb)) ?_
    · rw [matVec_mul, e2, matVec_colMat]
      simp only [vsmul, vadd]
      rw [Vec3.mk.injEq]
      refine ⟨by ring, by ring, by ring⟩
    · rw [neg_div_neg_eq, neg_div_neg_eq, mul_div_cancel_left₀ _ hb,
        mul_div_cancel_left₀ _ hb]
  · refine Eq.trans (projectPoint_eq _ _ _ ⟨g * c.p2.1, g * c.p2.2, g⟩ ?_ hg) ?_
    · rw [matVec_mul, e3, matVec_colMat]
      simp only [vsmul, vadd]
      rw [Vec3.mk.injEq]
      refine ⟨by ring, by ring, by ring⟩
    · rw [mul_div_cancel_left₀ _ hg, mul_div_cancel_left₀ _ hg]
  · refine Eq.trans (projectPoint_eq _ _ _ ⟨c.p3.1, c.p3.2, 1⟩ ?_ one_ne_zero) ?_
    · rw [matVec_mul, e4, matVec_colMat]
      simp only [vsmul_one]
      exact hc
    · rw [div_one, div_one]

/-! ## Images

`image_u8` is the external image-buffer collaborator (§6): width, height,
stride and an 8-bit pixel buffer. -/

/-- The external grayscale image buffer (`image_u8_t`). -/
structure image_u8 where
  width : Nat
  height : Nat
  stride : Nat
  buf : List Nat
deriving DecidableEq, Repr

/-- Raw pixel read at `(x, y)` (out-of-range reads default to 0). -/
def image_u8.pixel (im : image_u8) (x y : Nat) : Nat :=
  im.buf.getD (y * im.stride + x) 0

/-- Clamped (replicate-border) pixel read. -/
def image_u8.pixelC (im : image_u8) (x y : Nat) : Nat :=
  im.pixel (min x (im.width - 1)) (min y (im.height - 1))

/-! ## Tag families, detector configuration, registry

These embed `struct apriltag_family`, `struct apriltag_quad_thresh_params`
and `struct apriltag_detector` of `apriltag.h`.  The opaque `impl`
acceleration cache, the `timeprofile_t`/`workerpool_t`/mutex internals and
the per-frame statistics counters are omitted: they carry no observable
detection behaviour in this embedding (§3, §5). -/

/-- Embedded from the source: `struct apriltag_family`.  Codes are the
`uint64_t` codewords as naturals. -/
structure apriltag_family where
  ncodes : Nat
  codes : List Nat
  width_at_border : Int
  total_width : Int
  reversed_border : Bool
  nbits : Nat
  bit_x : List Nat
  bit_y : List Nat
  h : Nat
  name : String
deriving DecidableEq, Repr

/-- Embedded from the source: `struct apriltag_quad_thresh_params`. -/
structure apriltag_quad_thresh_params where
  min_cluster_pixels : Nat
  max_nmaxima : Nat
  critical_rad : ℚ
  cos_critical_rad : ℚ
  max_line_fit_mse : ℚ
  min_white_black_diff : Int
  deglitch : Int
deriving DecidableEq, Repr

/-- Embedded from the source: `struct apriltag_detector` (user-visible
configuration and the family registry; see the section comment for the
omitted internals).  The registry holds `(family, bits_corrected)` pairs
as registered by `apriltag_detector_add_family_bits`. -/
structure apriltag_detector where
  nthreads : Nat
  quad_decimate : ℚ
  quad_sigma : ℚ
  refine_edges : Int
  decode_sharpening : ℚ
  debug : Int
  qtp : apriltag_quad_thresh_params
  tag_families : List (apriltag_family × Nat)
deriving DecidableEq, Repr

/-- Modelled from the spec: `apriltag_detector_add_family_bits` (declared
in `apriltag.h`, body in the missing `apriltag.c`) registers the pair
(family, max-correctable-bits) in the detector's FamilyRegistry (§3). -/
def apriltag_detector_add_family_bits (td : apriltag_detector)
    (fam : apriltag_family) (bits_corrected : Nat) : apriltag_detector :=
  { td with tag_families := td.tag_families ++ [(fam, bits_corrected)] }

/-- Embedded from the source: the `static inline` function
`apriltag_detector_add_family` of `apriltag.h`, which calls
`apriltag_detector_add_family_bits(td, fam, 2)`. -/
def apriltag_detector_add_family (td : apriltag_detector)
    (fam : apriltag_family) : apriltag_detector :=
  apriltag_detector_add_family_bits td fam 2

/-! ## Adaptive thresholder (§4.1) -/

/-- Minimum intensity over the 4×4 tile `(tx, ty)` (clamped reads). -/
def tileMin (im : image_u8) (tx ty : Nat) : Nat :=
  (List.range 16).foldl
    (fun acc k => min acc (im.pixelC (4 * tx + k % 4) (4 * ty + k / 4))) 255

/-- Maximum intensity over the 4×4 tile `(tx, ty)` (clamped reads). -/
def tileMax (im : image_u8) (tx ty : Nat) : Nat :=
  (List.range 16).foldl
    (fun acc k => max acc (im.pixelC (4 * tx + k % 4) (4 * ty + k / 4))) 0

/-- Tile minimum smoothed over the 3×3 neighbouring tiles (§4.1 phase 2;
this read happens after the phase-1 barrier, once every tile model is
available). -/
def tileMinSmooth (im : image_u8) (tx ty : Nat) : Nat :=
  (List.range 9).foldl
    (fun acc k => min acc (tileMin im (tx + k % 3 - 1) (ty + k / 3 - 1))) 255

/-- Tile maximum smoothed over the 3×3 neighbouring tiles. -/
def tileMaxSmooth (im : image_u8) (tx ty : Nat) : Nat :=
  (List.range 9).foldl
    (fun acc k => max acc (tileMax im (tx + k % 3 - 1) (ty + k / 3 - 1))) 0

/-- Modelled from the spec: per-pixel classification of the Adaptive
Thresholder (§4.1, function `threshold` of the missing
`apriltag_quad_thresh.c`).  `0` is black, `255` white, `127` ambiguous; a
tile whose smoothed white-minus-black separation is below
`min_white_black_diff` is ambiguous, otherwise the pixel is classified
against the midpoint threshold of the smoothed local model. -/
def threshPixel (qtp : apriltag_quad_thresh_params) (im : image_u8)
    (x y : Nat) : Nat :=
  let mn := tileMinSmooth im (x / 4) (y / 4)
  let mx := tileMaxSmooth im (x / 4) (y / 4)
  if (mx - mn : Int) < qtp.min_white_black_diff then 127
  else if mn + (mx - mn) / 2 < im.pixelC x y then 255 else 0

/-- The materialized classification map (row-major, same dimensions as the
working image). -/
def threshMapRaw (qtp : apriltag_quad_thresh_params) (im : image_u8) :
    List Nat :=
  (List.range (im.width * im.height)).map
    (fun i => threshPixel qtp im (i % im.width) (i / im.width))

/-- Clamped read into a materialized classification map. -/
def tmGet (t : List Nat) (w h x y : Nat) : Nat :=
  t.getD (min y (h - 1) * w + min x (w - 1)) 0

/-- Modelled from the spec: the optional deglitch pass (§4.1) removes
isolated misclassified pixels all of whose 8 neighbours carry the
opposite class. -/
def deglitchMap (t : List Nat) (w h : Nat) : List Nat :=
  (List.range (w * h)).map fun i =>
    let x := i % w
    let y := i / w
    let v := tmGet t w h x y
    if (v = 0 ∨ v = 255) ∧
        ((List.range 9).all fun k =>
          k == 4 || tmGet t w h (x + k % 3 - 1) (y + k / 3 - 1) == 255 - v) then
      255 - v
    else v

/-- Modelled from the spec: the Adaptive Thresholder (§4.1).  Always
produces a classification map (possibly all-ambiguous); the deglitch pass
runs only when `qtp.deglitch` is non-zero. -/
def threshim (qtp : apriltag_quad_thresh_params) (im : image_u8) :
    List Nat :=
  let t := threshMapRaw qtp im
  if qtp.deglitch ≠ 0 then deglitchMap t im.width im.height else t

/-! ## Segmenter (§4.2) -/

/-- A boundary point of a cluster: position (stored at the midpoint of a
black/white pixel transition) and gradient direction (pointing from black
towards white). -/
structure ClusterPoint where
  pos : Pt
  gx : Int
  gy : Int
deriving DecidableEq, Repr

/-- One relaxation round of minimum-label propagation over 4-adjacent
same-class pixels. -/
def labelStep (t : List Nat) (w h : Nat) (lab : List Nat) : List Nat :=
  (List.range (w * h)).map fun i =>
    let x := i % w
    let y := i / w
    let v := t.getD i 0
    let l0 := lab.getD i 0
    let l1 := if 0 < x ∧ t.getD (i - 1) 0 = v then min l0 (lab.getD (i - 1) 0) else l0
    let l2 := if x + 1 < w ∧ t.getD (i + 1) 0 = v then min l1 (lab.getD (i + 1) 0) else l1
    let l3 := if 0 < y ∧ t.getD (i - w) 0 = v then min l2 (lab.getD (i - w) 0) else l2
    if y + 1 < h ∧ t.getD (i + w) 0 = v then min l3 (lab.getD (i + w) 0) else l3

/-- Fuelled fixpoint iteration of `labelStep`. -/
def labelFuel (t : List Nat) (w h : Nat) (lab : List Nat) : Nat → List Nat
  | 0 => lab
  | n + 1 =>
    let l2 := labelStep t w h lab
    if l2 = lab then lab else labelFuel t w h l2 n

/-- Modelled from the spec: connected components of same-class pixels
(§4.2, the union-find style merge of the missing
`apriltag_quad_thresh.c`), computed as the least fixpoint of minimum-label
propagation — pixels of one 4-connected same-class component share the
component's minimum pixel index as label. -/
def labels (t : List Nat) (w h : Nat) : List Nat :=
  labelFuel t w h (List.range (w * h)) (w * h)

/-- Modelled from the spec: boundary extraction of the Segmenter (§4.2).
Each black/white transition between 4-adjacent pixels contributes one
boundary point, keyed by the pair (black component label, white component
label); the point sits at the transition midpoint and its gradient points
from black to white. -/
def boundaryPts (t : List Nat) (w h : Nat) : List ((Nat × Nat) × ClusterPoint) :=
  let lab := labels t w h
  (List.range (w * h)).flatMap fun i =>
    let x := i % w
    let y := i / w
    let v := t.getD i 0
    let right :=
      if x + 1 < w then
        let v2 := t.getD (i + 1) 0
        if v = 0 ∧ v2 = 255 then
          [((lab.getD i 0, lab.getD (i + 1) 0),
            ⟨((x : ℚ) + 1 / 2, (y : ℚ)), 1, 0⟩)]
        else if v = 255 ∧ v2 = 0 then
          [((lab.getD (i + 1) 0, lab.getD i 0),
            ⟨((x : ℚ) + 1 / 2, (y : ℚ)), -1, 0⟩)]
        else []
      else []
    let down :=
      if y + 1 < h then
        let v2 := t.getD (i + w) 0
        if v = 0 ∧ v2 = 255 then
          [((lab.getD i 0, lab.getD (i + w) 0),
            ⟨((x : ℚ), (y : ℚ) + 1 / 2), 0, 1⟩)]
        else if v = 255 ∧ v2 = 0 then
          [((lab.getD (i + w) 0, lab.getD i 0),
            ⟨((x : ℚ), (y : ℚ) + 1 / 2), 0, -1⟩)]
        else []
      else []
    right ++ down

/-- Group keyed boundary points into clusters (one cluster per distinct
(black label, white label) key). -/
def gatherClusters (edges : List ((Nat × Nat) × ClusterPoint)) :
    List (List ClusterPoint) :=
  let keys := (edges.map Prod.fst).dedup
  keys.map fun k => (edges.filter (fun e => e.1 = k)).map Prod.snd

/-- Modelled from the spec: the Segmenter (§4.2) — boundary clustering of
the classification map of a working image.  Cross-cluster order carries no
guarantee; clusters are consumed independently by the Quad Fitter. -/
def gradient_clusters (im : image_u8) (t : List Nat) :
    List (List ClusterPoint) :=
  gatherClusters (boundaryPts t im.width im.height)

/-! ## Quad fitter (§4.3) -/

/-- Embedded from the source: `struct quad` of `apriltag.h` — four corner
points, a reversed-border flag, and the (initially absent) homography
pair `H`/`Hinv`. -/
structure quad where
  p : P4
  reversed_border : Bool
  H : Option Mat3 := none
  Hinv : Option Mat3 := none
deriving DecidableEq, Repr

/-- Cross product of two planar vectors. -/
def cross2 (a b : Pt) : ℚ := a.1 * b.2 - a.2 * b.1

/-- Quadrant of a direction vector (used for the pseudo-angle sort, in
the style of the quadrant trick of the original `ptsort` comparator). -/
def quadrantOf (d : Pt) : Nat :=
  if 0 < d.1 ∧ 0 ≤ d.2 then 0
  else if d.1 ≤ 0 ∧ 0 < d.2 then 1
  else if d.1 < 0 ∧ d.2 ≤ 0 then 2
  else 3

/-- Pseudo-angle comparison of two points around a center `c`: first by
quadrant, then by cross product, avoiding trigonometry. -/
def angLe (c p q : Pt) : Bool :=
  let dp := (p.1 - c.1, p.2 - c.2)
  let dq := (q.1 - c.1, q.2 - c.2)
  let qp := quadrantOf dp
  let qq := quadrantOf dq
  if qp = qq then decide (0 ≤ cross2 dp dq) else decide (qp < qq)

/-- Centroid of a point list. -/
def centroidOf (ps : List Pt) : Pt :=
  ((ps.map Prod.fst).sum / (ps.length : ℚ),
   (ps.map Prod.snd).sum / (ps.length : ℚ))

/-- Modelled from the spec: the least-squares line-fit error of a point
run (§4.3).  The exact smallest eigenvalue of the centered second-moment
matrix needs a square root, which has no rational value; this uses the
determinant/trace quotient of that matrix, which is zero exactly on
collinear runs and is within a factor of two of the eigenvalue. -/
def lineFitErr (ps : List Pt) : ℚ :=
  if ps.length = 0 then 0 else
  let n : ℚ := (ps.length : ℚ)
  let sx := (ps.map Prod.fst).sum
  let sy := (ps.map Prod.snd).sum
  let sxx := (ps.map (fun p => p.1 * p.1)).sum
  let syy := (ps.map (fun p => p.2 * p.2)).sum
  let sxy := (ps.map (fun p => p.1 * p.2)).sum
  let cxx := sxx - sx * sx / n
  let cyy := syy - sy * sy / n
  let cxy := sxy - sx * sy / n
  if cxx + cyy = 0 then 0 else (cxx * cyy - cxy * cxy) / (cxx + cyy)

/-- Cyclic indexing into the sorted boundary. -/
def cycGet (ps : List Pt) (i : Nat) : Pt := ps.getD (i % ps.length) (0, 0)

/-- The window of `2k+1` consecutive boundary points centered at `i`. -/
def windowAt (ps : List Pt) (i k : Nat) : List Pt :=
  (List.range (2 * k + 1)).map (fun j => cycGet ps (i + ps.length + j - k))

/-- The run of boundary points from index `i` to index `j` (cyclic). -/
def arcPts (ps : List Pt) (i j : Nat) : List Pt :=
  (List.range (j - i + 1)).map (fun t => cycGet ps (i + t))

/-- Local maximum test on the cyclic list of window errors (strictly
above the predecessor, at least the successor). -/
def isLocalMax (e : List ℚ) (i : Nat) : Bool :=
  let n := e.length
  decide (e.getD ((i + n - 1) % n) 0 < e.getD i 0) &&
    decide (e.getD ((i + 1) % n) 0 ≤ e.getD i 0)

/-- Keep the `m` corner candidates of largest window error, in boundary
order (`max_nmaxima` of §4.3). -/
def topMaxima (e : List ℚ) (cands : List Nat) (m : Nat) : List Nat :=
  let sorted := List.insertionSort (fun i j => e.getD j 0 ≤ e.getD i 0) cands
  List.insertionSort (· ≤ ·) (sorted.take m)

/-- All increasing 4-element subsets of a candidate list. -/
def subsets4 (l : List Nat) : List (Nat × Nat × Nat × Nat) :=
  l.flatMap fun a =>
    (l.filter (fun x => a < x)).flatMap fun b =>
      (l.filter (fun x => b < x)).flatMap fun c =>
        (l.filter (fun x => c < x)).map fun d => (a, b, c, d)

/-- Corner quadruple and combined line-fit mean-squared error of one
candidate 4-subset: the four corners, and the summed side line-fit error
normalized by the boundary length. -/
def evalQuad (ps : List Pt) (q : Nat × Nat × Nat × Nat) : P4 × ℚ :=
  let n := ps.length
  let e := lineFitErr (arcPts ps q.1 q.2.1) + lineFitErr (arcPts ps q.2.1 q.2.2.1)
    + lineFitErr (arcPts ps q.2.2.1 q.2.2.2) + lineFitErr (arcPts ps q.2.2.2 (q.1 + n))
  (⟨cycGet ps q.1, cycGet ps q.2.1, cycGet ps q.2.2.1, cycGet ps q.2.2.2⟩, e / (n : ℚ))

/-- Interior-angle admissibility at corner `b` between neighbours `a` and
`c` (§4.3): reject angles closer to straight (0 or π) than the critical
threshold, i.e. require `cos² < cos_critical_rad²`; degenerate duplicate
corners (a zero-length side) are rejected by the same test. -/
def angleOk (cc : ℚ) (a b c : Pt) : Bool :=
  let u := (a.1 - b.1, a.2 - b.2)
  let v := (c.1 - b.1, c.2 - b.2)
  let d := u.1 * v.1 + u.2 * v.2
  let n1 := u.1 ^ 2 + u.2 ^ 2
  let n2 := v.1 ^ 2 + v.2 ^ 2
  decide (d ^ 2 < cc ^ 2 * (n1 * n2))

/-- All four interior angles admissible. -/
def quadAngleOk (cc : ℚ) (c4 : P4) : Bool :=
  angleOk cc c4.p3 c4.p0 c4.p1 && angleOk cc c4.p0 c4.p1 c4.p2 &&
    angleOk cc c4.p1 c4.p2 c4.p3 && angleOk cc c4.p2 c4.p3 c4.p0

/-- Choose the admissible candidate 4-subset of least combined line-fit
error. -/
def pickBestQuad (cc : ℚ) (ps : List Pt) (cands : List Nat) :
    Option (P4 × ℚ) :=
  (subsets4 cands).foldl
    (fun acc q =>
      let cm := evalQuad ps q
      if quadAngleOk cc cm.1 then
        match acc with
        | none => some cm
        | some best => if cm.2 < best.2 then some cm else acc
      else acc)
    none

/-- Modelled from the spec: the Quad Fitter (§4.3, function `fit_quad` of
the missing `apriltag_quad_thresh.c`).  Discards clusters below
`min_cluster_pixels`; sorts the boundary by pseudo-angle around the
centroid; takes up to `max_nmaxima` local maxima of the windowed line-fit
error as corner candidates; picks the admissible 4-subset of least
combined line-fit error, rejecting interior angles too close to straight
and total error above `max_line_fit_mse`; normalizes the corner winding
to counter-clockwise, rejecting degenerate (zero-area) corner cycles; and
derives the reversed-border flag from the cluster's gradient direction
relative to the centroid. -/
def fit_quad (qtp : apriltag_quad_thresh_params) (cl : List ClusterPoint) :
    Option quad :=
  if cl.length < qtp.min_cluster_pixels then none else
  let pts0 := cl.map (fun cp => cp.pos)
  let c := centroidOf pts0
  let ps := List.insertionSort (fun p q => angLe c p q = true) pts0
  let n := ps.length
  let errs := (List.range n).map (fun i => lineFitErr (windowAt ps i 2))
  let cands := (List.range n).filter (fun i => isLocalMax errs i = true)
  let top := topMaxima errs cands qtp.max_nmaxima
  match pickBestQuad qtp.cos_critical_rad ps top with
  | none => none
  | some cm =>
    if qtp.max_line_fit_mse < cm.2 then none else
    let a2 := area2 cm.1
    if a2 = 0 then none else
    let c4 := if a2 < 0 then rev4 cm.1 else cm.1
    let s : ℚ := (cl.map (fun cp =>
      (cp.gx : ℚ) * (cp.pos.1 - c.1) + (cp.gy : ℚ) * (cp.pos.2 - c.2))).sum
    some ⟨c4, decide (s < 0), none, none⟩

/-- Every quad emitted by the fitter has counter-clockwise corners. -/
theorem fit_quad_ccw (qtp : apriltag_quad_thresh_params)
    (cl : List ClusterPoint) (q : quad) (h : fit_quad qtp cl = some q) :
    0 < area2 q.p := by
  simp only [fit_quad] at h
  split at h
  · exact Option.noConfusion h
  · split at h
    · exact Option.noConfusion h
    · rename_i cm heq
      split at h
      · exact Option.noConfusion h
      · split at h
        · exact Option.noConfusion h
        · rename_i hmse ha2
          rw [Option.some.injEq] at h
          subst h
          show 0 < area2 (if area2 cm.1 < 0 then rev4 cm.1 else cm.1)
          split_ifs with hneg
          · rw [area2_rev4]
            exact neg_pos.mpr hneg
          · rcases lt_trichotomy (area2 cm.1) 0 with hlt | hz | hgt
            · exact absurd hlt hneg
            · exact absurd hz ha2
            · exact hgt

/-! ## Preprocessor (§2 stage 1) -/

/-- Modelled from the spec: integer decimation of the Preprocessor — the
working image samples every `f`-th pixel of the input.  Decoding always
re-reads the original image. -/
def image_u8_decimate (im : image_u8) (f : Nat) : image_u8 :=
  let w := im.width / f
  let h := im.height / f
  { width := w, height := h, stride := w,
    buf := (List.range (w * h)).map
      (fun i => im.pixelC (f * (i % w)) (f * (i / w))) }

/-- Modelled from the spec: the Gaussian blur of the Preprocessor
(`quad_sigma`), embedded as a 3×3 replicate-border box average — the
σ-dependent kernel of the original is floating point and the claims do
not depend on its exact weights. -/
def image_u8_blur (im : image_u8) : image_u8 :=
  { width := im.width, height := im.height, stride := im.width,
    buf := (List.range (im.width * im.height)).map (fun i =>
      let x := i % im.width
      let y := i / im.width
      ((List.range 9).map
        (fun k => im.pixelC (x + k % 3 - 1) (y + k / 3 - 1))).sum / 9) }

/-- Modelled from the spec: the working image for stages §4.1–§4.3 —
decimated when `quad_decimate > 1` (integer factor `⌊quad_decimate⌋`),
then blurred when `quad_sigma > 0`. -/
def workingImage (quad_decimate quad_sigma : ℚ) (im : image_u8) :
    image_u8 :=
  let im1 := if 1 < quad_decimate then
      image_u8_decimate im (Rat.floor quad_decimate).toNat
    else im
  if 0 < quad_sigma then image_u8_blur im1 else im1

/-! ## Quad pipeline (§4.2–§4.5) -/

/-- Corners scaled by a factor (mapping working-image coordinates back to
full resolution after decimation). -/
def scaleP4 (f : ℚ) (c : P4) : P4 :=
  ⟨(f * c.p0.1, f * c.p0.2), (f * c.p1.1, f * c.p1.2),
   (f * c.p2.1, f * c.p2.2), (f * c.p3.1, f * c.p3.2)⟩

/-- A quad with corners scaled by a factor. -/
def scaleQuad (f : ℚ) (q : quad) : quad := { q with p := scaleP4 f q.p }

theorem area2_scaleP4 (f : ℚ) (c : P4) :
    area2 (scaleP4 f c) = f ^ 2 * area2 c := by
  simp only [area2, scaleP4]
  ring

/-- One candidate quad per admissible cluster of the working image, each
tagged with the index of the cluster it came from (§4.2–§4.3). -/
def fitQuadsProv (qtp : apriltag_quad_thresh_params) (imw : image_u8) :
    List (Nat × quad) :=
  let t := threshim qtp imw
  let cls := gradient_clusters imw t
  cls.enum.filterMap (fun ic => (fit_quad qtp ic.2).map (fun q => (ic.1, q)))

/-! ## Edge refiner (§4.4) -/

/-- Intensity read at a rational point (nearest pixel by floor, clamped). -/
def pixQ (im : image_u8) (p : Pt) : ℚ :=
  (im.pixelC (Rat.floor p.1).toNat (Rat.floor p.2).toNat : ℚ)

/-- Intersection of the lines through `p` with direction `u` and through
`q` with direction `v`; `none` when parallel. -/
def lineInter (p u q v : Pt) : Option Pt :=
  let d := cross2 u v
  if d = 0 then none else
  let t := cross2 (q.1 - p.1, q.2 - p.2) v / d
  some (p.1 + t * u.1, p.2 + t * u.2)

/-- Summed gradient magnitude across the edge `a → b` shifted by `o`
(in units of the half-pixel normal). -/
def edgeScore (im : image_u8) (a b : Pt) (o : ℚ) : ℚ :=
  let u := (b.1 - a.1, b.2 - a.2)
  let linf := max |u.1| |u.2|
  if linf = 0 then 0 else
  let nn := (-u.2 / linf, u.1 / linf)
  ((List.range 4).map (fun j =>
    let t : ℚ := ((j : ℚ) + 1 / 2) / 4
    let m := (a.1 + t * u.1, a.2 + t * u.2)
    |pixQ im (m.1 + (o + 1) * nn.1, m.2 + (o + 1) * nn.2)
      - pixQ im (m.1 + (o - 1) * nn.1, m.2 + (o - 1) * nn.2)|)).sum

/-- Normal offset with the strongest gradient among `{-1, 0, 1}`;
`0` (the unrefined edge) wins all ties. -/
def bestOffset (im : image_u8) (a b : Pt) : ℚ :=
  let s0 := edgeScore im a b 0
  let sm := edgeScore im a b (-1)
  let sp := edgeScore im a b 1
  if s0 < sm ∧ sp ≤ sm then -1 else if s0 < sp then 1 else 0

/-- The edge `a → b` snapped to the strongest nearby gradient. -/
def shiftEdge (im : image_u8) (a b : Pt) : Pt × Pt :=
  let u := (b.1 - a.1, b.2 - a.2)
  let linf := max |u.1| |u.2|
  if linf = 0 then (a, b) else
  let nn := (-u.2 / linf, u.1 / linf)
  let o := bestOffset im a b
  ((a.1 + o * nn.1, a.2 + o * nn.2), (b.1 + o * nn.1, b.2 + o * nn.2))

/-- Candidate refined corners: each edge snapped to the strongest nearby
gradient, corners recomputed as edge-line intersections; `none` when some
intersection degenerates. -/
def refineCorners (im : image_u8) (q : quad) : Option P4 :=
  let e0 := shiftEdge im q.p.p0 q.p.p1
  let e1 := shiftEdge im q.p.p1 q.p.p2
  let e2 := shiftEdge im q.p.p2 q.p.p3
  let e3 := shiftEdge im q.p.p3 q.p.p0
  let dirOf := fun (e : Pt × Pt) => ((e.2.1 - e.1.1, e.2.2 - e.1.2) : Pt)
  match lineInter e3.1 (dirOf e3) e0.1 (dirOf e0),
      lineInter e0.1 (dirOf e0) e1.1 (dirOf e1),
      lineInter e1.1 (dirOf e1) e2.1 (dirOf e2),
      lineInter e2.1 (dirOf e2) e3.1 (dirOf e3) with
  | some c0, some c1, some c2, some c3 => some ⟨c0, c1, c2, c3⟩
  | _, _, _, _ => none

/-- Modelled from the spec: the Edge Refiner (§4.4, function
`refine_edges` of the missing `apriltag.c`): snaps each edge of the quad
to nearby strong gradients of the full-resolution image and recomputes
the corners as edge-line intersections.  Total — exactly one output quad
per input quad; falls back to the unrefined quad when no stronger nearby
gradient exists, when an intersection degenerates, or when the recomputed
corner cycle is not counter-clockwise. -/
def refine_edges_quad (im : image_u8) (q : quad) : quad :=
  match refineCorners im q with
  | some c4 => if 0 < area2 c4 then { q with p := c4 } else q
  | none => q

/-- The edge-refinement stage over provenance-tagged quads: refines each
quad in place, keeping the tag of the cluster it came from. -/
def refine_edges_stage (im : image_u8) (l : List (Nat × quad)) :
    List (Nat × quad) :=
  l.map (fun cq => (cq.1, refine_edges_quad im cq.2))

theorem refine_edges_quad_ccw (im : image_u8) (q : quad)
    (h : 0 < area2 q.p) : 0 < area2 (refine_edges_quad im q).p := by
  unfold refine_edges_quad
  rcases hrc : refineCorners im q with _ | c4
  · exact h
  · show 0 < area2 (if 0 < area2 c4 then { q with p := c4 } else q).p
    split_ifs with hp
    · exact hp
    · exact h

/-- Modelled from the spec: the full quad stage of
`apriltag_detector_detect` — thresholding, segmentation and quad fitting
on the working image, corner coordinates scaled back to full resolution
when decimation was applied, and edge refinement exactly when
`refine_edges` is non-zero and decimation is greater than 1 (the
`refine_edges` option is ignored at `quad_decimate = 1`, per
`apriltag.h`).  Quads keep the tag of the cluster they came from. -/
def detectQuadsProv (td : apriltag_detector) (im : image_u8) :
    List (Nat × quad) :=
  let imw := workingImage td.quad_decimate td.quad_sigma im
  let fitted := fitQuadsProv td.qtp imw
  let scaled := if 1 < td.quad_decimate then
      fitted.map (fun cq =>
        (cq.1, scaleQuad ((Rat.floor td.quad_decimate).toNat : ℚ) cq.2))
    else fitted
  if td.refine_edges ≠ 0 ∧ 1 < td.quad_decimate then
    refine_edges_stage im scaled
  else scaled

/-- Modelled from the spec: §4.5 applied to one quad — fills in `H` and
`Hinv`, dropping the quad when the corner system is singular. -/
def quad_update_homographies (q : quad) : Option quad :=
  (homography_compute q.p).map
    (fun hh => { q with H := some hh.1, Hinv := some hh.2 })

/-- The quads reaching the decoder: fitted, scaled, optionally refined,
with homographies computed (singular quads dropped). -/
def detectQuads (td : apriltag_detector) (im : image_u8) : List quad :=
  ((detectQuadsProv td im).map Prod.snd).filterMap quad_update_homographies

/-- Modelled from the spec: `apriltag_quad_detector_detect` of
`apriltag.h` — runs the quad stage alone and returns the quads, `none`
exactly on the input-level precondition violations of §7. -/
def apriltag_quad_detector_detect (td : apriltag_detector)
    (im_orig : image_u8) : Option (List quad) :=
  if im_orig.width = 0 ∨ im_orig.height = 0 then none
  else some (detectQuads td im_orig)

/-! ## Decoder (§4.6) -/

/-- Embedded from the source: `struct apriltag_detection` — family
reference, decoded id, corrected-bit count, decision margin, homography,
center, and corners (stored counter-clockwise). -/
structure apriltag_detection where
  family : apriltag_family
  id : Nat
  hamming : Nat
  decision_margin : ℚ
  H : Mat3
  c : Pt
  p : P4
deriving DecidableEq, Repr

/-- Number of set bits of `n` among the low `fuel` binary digits
(structural recursion on the fuel, so that the kernel can evaluate it;
`fuel = n` always suffices). -/
def popcountAux : Nat → Nat → Nat
  | 0, _ => 0
  | fuel + 1, n => if n = 0 then 0 else n % 2 + popcountAux fuel (n / 2)

/-- Number of set bits. -/
def popcount (n : Nat) : Nat := popcountAux n n

/-- Hamming distance between two codewords. -/
def hamming_dist (a b : Nat) : Nat := popcount (Nat.xor a b)

/-- Modelled from the spec: nearest-codeword search (§4.6) — the index
and Hamming distance of the first codeword at minimal distance from the
sampled codeword. -/
def bestCode (codes : List Nat) (rcode : Nat) : Option (Nat × Nat) :=
  codes.enum.foldl
    (fun acc ic =>
      let d := hamming_dist ic.2 rcode
      match acc with
      | none => some (ic.1, d)
      | some best => if d < best.2 then some (ic.1, d) else acc)
    none

/-- Modelled from the spec: acceptance of a decode (§4.6, the
`quick_decode_codeword` lookup of the missing `apriltag.c`) — the nearest
codeword is accepted only when its Hamming distance is at most the
max-correctable-bits registered for the family. -/
def quick_decode_codeword (fam : apriltag_family) (bits_corrected : Nat)
    (rcode : Nat) : Option (Nat × Nat) :=
  match bestCode fam.codes rcode with
  | none => none
  | some idd => if idd.2 ≤ bits_corrected then some idd else none

/-- Tag-frame coordinates of bit `j` of a family: the bit-cell center
mapped into the `[-1, 1]` square. -/
def bitTagCoord (fam : apriltag_family) (j : Nat) : Pt :=
  let tw : ℚ := (fam.total_width : ℚ)
  (if tw = 0 then 0 else 2 * (((fam.bit_x.getD j 0 : ℚ) + 1 / 2) / tw) - 1,
   if tw = 0 then 0 else 2 * (((fam.bit_y.getD j 0 : ℚ) + 1 / 2) / tw) - 1)

/-- Rotation of a tag-frame point by `r` quarter turns (the decoder tries
all four tag orientations). -/
def rotPt (r : Nat) (p : Pt) : Pt :=
  match r % 4 with
  | 0 => p
  | 1 => (p.2, -p.1)
  | 2 => (-p.1, -p.2)
  | _ => (-p.2, p.1)

/-- Sampled intensity of bit `j` under orientation `r`, read from the
full-resolution image through the quad's homography. -/
def sampleBit (im : image_u8) (H : Mat3) (fam : apriltag_family)
    (r j : Nat) : ℚ :=
  let uv := rotPt r (bitTagCoord fam j)
  match projectPoint H uv.1 uv.2 with
  | some pp => pixQ im pp
  | none => 0

/-- Modelled from the spec: bit sampling and classification of one tag
orientation (§4.6): the local black/white model is fitted from the tag's
own sampled intensities (midpoint of the extremes), the optional
sharpening amplifies each sample's distance from the decision boundary by
`decode_sharpening`, bits are assembled most-significant-first into the
candidate codeword, and the decision margin is the average absolute
distance of the (sharpened) samples from the decision threshold. -/
def decodeRot (sharp : ℚ) (im : image_u8) (H : Mat3)
    (fam : apriltag_family) (r : Nat) : Nat × ℚ :=
  let vs := (List.range fam.nbits).map (fun j => sampleBit im H fam r j)
  let lo := vs.foldl min 255
  let hi := vs.foldl max 0
  let thresh := (lo + hi) / 2
  let vs2 := vs.map (fun v => v + sharp * (v - thresh))
  let rcode := vs2.foldl (fun acc v => 2 * acc + if thresh < v then 1 else 0) 0
  let margin := (vs2.map (fun v => |v - thresh|)).sum / (fam.nbits : ℚ)
  (rcode, margin)

/-- One step of keeping the least-key element seen so far. -/
def pickStep {α : Type} (key : α → Nat) (acc : Option α) (c : α) :
    Option α :=
  match acc with
  | none => some c
  | some b => if key c < key b then some c else acc

/-- First element of minimal key in a list (the decoder keeps the
orientation of least Hamming distance). -/
def pickMinBy {α : Type} (key : α → Nat) (l : List α) : Option α :=
  l.foldl (pickStep key) none

theorem pickMinBy_aux {α : Type} (key : α → Nat) (l : List α)
    (init : Option α) (x : α)
    (h : l.foldl (pickStep key) init = some x) :
    init = some x ∨ x ∈ l := by
  induction l generalizing init with
  | nil => exact Or.inl h
  | cons a t ih =>
    rw [List.foldl_cons] at h
    rcases ih _ h with h2 | h2
    · cases init with
      | none =>
        simp only [pickStep, Option.some.injEq] at h2
        exact Or.inr (h2 ▸ List.mem_cons_self a t)
      | some b =>
        simp only [pickStep] at h2
        split_ifs at h2 with hk
        · rw [Option.some.injEq] at h2
          exact Or.inr (h2 ▸ List.mem_cons_self a t)
        · exact Or.inl h2
    · exact Or.inr (List.mem_cons_of_mem a h2)

theorem pickMinBy_mem {α : Type} (key : α → Nat) (l : List α) (x : α)
    (h : pickMinBy key l = some x) : x ∈ l := by
  rcases pickMinBy_aux key l none x h with h2 | h2
  · exact Option.noConfusion h2
  · exact h2

/-- The tag-frame quarter-turn as a homography: `rotTagPow 1` maps each
homogeneous ideal corner to the next one in storage order, so composing a
quad's `H` with `rotTagPow r` re-aims it at the orientation-rotated
corners (the detection's corner convention). -/
def rotTagPow (r : Nat) : Mat3 :=
  match r % 4 with
  | 0 => mat3Id
  | 1 => ⟨0, 1, 0, -1, 0, 0, 0, 0, 1⟩
  | 2 => ⟨-1, 0, 0, 0, -1, 0, 0, 0, 1⟩
  | _ => ⟨0, -1, 0, 1, 0, 0, 0, 0, 1⟩

/-- Modelled from the spec: the Decoder (§4.6, the `quad_decode` of the
missing `apriltag.c`) for one (quad, family) pair: a family is attempted
only when its reversed-border convention matches the quad's; all four
orientations are sampled and the accepted decode of least Hamming
distance wins; the detection's corners are the quad's corners cyclically
rotated by the decoded orientation, and its center is the projection of
the tag origin. -/
def quad_decode (sharp : ℚ) (fam : apriltag_family) (bits_corrected : Nat)
    (im : image_u8) (q : quad) : Option apriltag_detection :=
  if fam.reversed_border ≠ q.reversed_border then none else
  match q.H with
  | none => none
  | some H =>
    match pickMinBy (fun c => c.2.2.1)
        ((List.range 4).filterMap (fun r =>
          (quick_decode_codeword fam bits_corrected
              (decodeRot sharp im H fam r).1).map
            (fun idd => (r, idd.1, idd.2, (decodeRot sharp im H fam r).2)))) with
    | none => none
    | some best =>
      some { family := fam, id := best.2.1, hamming := best.2.2.1,
             decision_margin := best.2.2.2,
             H := mat3Mul H (rotTagPow best.1),
             c := (projectPoint H 0 0).getD (0, 0),
             p := rotK best.1 q.p }

theorem decodeRot_margin_nonneg (sharp : ℚ) (im : image_u8) (H : Mat3)
    (fam : apriltag_family) (r : Nat) :
    0 ≤ (decodeRot sharp im H fam r).2 := by
  simp only [decodeRot]
  apply div_nonneg
  · apply List.sum_nonneg
    intro x hx
    rw [List.mem_map] at hx
    obtain ⟨v, _, rfl⟩ := hx
    exact abs_nonneg _
  · exact Nat.cast_nonneg _

/-- Inversion of a successful decode: the detection carries the decoded
family, a corrected-bit count within the registered bound, a non-negative
decision margin, and the quad's corners rotated by the decoded
orientation. -/
theorem quad_decode_spec (sharp : ℚ) (fam : apriltag_family) (b : Nat)
    (im : image_u8) (q : quad) (d : apriltag_detection)
    (h : quad_decode sharp fam b im q = some d) :
    d.family = fam ∧ d.hamming ≤ b ∧ 0 ≤ d.decision_margin ∧
      ∃ H r, q.H = some H ∧ d.p = rotK r q.p ∧
        d.H = mat3Mul H (rotTagPow r) := by
  unfold quad_decode at h
  split_ifs at h
  split at h
  · exact Option.noConfusion h
  · rename_i H hH
    split at h
    · exact Option.noConfusion h
    · rename_i best hbest
      rw [Option.some.injEq] at h
      subst h
      have hmem := pickMinBy_mem _ _ _ hbest
      rw [List.mem_filterMap] at hmem
      obtain ⟨r, _, hr⟩ := hmem
      rw [Option.map_eq_some'] at hr
      obtain ⟨idd, hq, hbesteq⟩ := hr
      unfold quick_decode_codeword at hq
      split at hq
      · exact Option.noConfusion hq
      · rename_i idd0 hbc
        split_ifs at hq with hle
        rw [Option.some.injEq] at hq
        subst hq
        subst hbesteq
        exact ⟨rfl, hle, decodeRot_margin_nonneg sharp im H fam r,
          H, r, hH, rfl, rfl⟩

/-! ## Detection assembler (§4.7) -/

/-- Modelled from the spec: all successful decodes across every
(quad, family) pair — the raw detection list reaching the Assembler
(the second parallel region of §5; its merge order carries no
significance, determinism being restored by the final sort). -/
def detectRaw (td : apriltag_detector) (im : image_u8) :
    List apriltag_detection :=
  (detectQuads td im).flatMap (fun q =>
    td.tag_families.filterMap
      (fun e => quad_decode td.decode_sharpening e.1 e.2 im q))

/-- Modelled from the spec: the center tolerance (in squared pixels) under
which two same-family same-id detections count as the same physical tag
(§4.7; the constant is a model choice — the original names only "a small
pixel tolerance"). -/
def detCenterTol2 : ℚ := 4

/-- Modelled from the spec: the same-physical-tag criterion of the
Detection Assembler (§4.7): same family, same id, centers within the
tolerance. -/
def sameTag (a b : apriltag_detection) : Prop :=
  a.family = b.family ∧ a.id = b.id ∧ dist2 a.c b.c ≤ detCenterTol2

instance sameTag.dec : ∀ a b, Decidable (sameTag a b) := fun a b =>
  decidable_of_iff
    (a.family = b.family ∧ a.id = b.id ∧ dist2 a.c b.c ≤ detCenterTol2)
    Iff.rfl

theorem sameTag_symm {a b : apriltag_detection} (h : sameTag a b) :
    sameTag b a :=
  ⟨h.1.symm, h.2.1.symm, by rw [dist2_comm]; exact h.2.2⟩

/-- Modelled from the spec: one deduplication step of the Detection
Assembler (§4.7): a new detection is kept — displacing every kept
detection for the same physical tag — exactly when its decision margin
beats each of them, and is dropped otherwise. -/
def reconcileInsert (kept : List apriltag_detection)
    (d : apriltag_detection) : List apriltag_detection :=
  if (kept.filter (fun k => decide (sameTag k d))).all
      (fun k => decide (k.decision_margin < d.decision_margin)) then
    d :: kept.filter (fun k => ! decide (sameTag k d))
  else kept

/-- Modelled from the spec: deduplication of the Detection Assembler
(§4.7) over the raw decode list. -/
def reconcile (ds : List apriltag_detection) : List apriltag_detection :=
  ds.foldl reconcileInsert []

theorem reconcileInsert_subset (kept : List apriltag_detection)
    (d x : apriltag_detection) (h : x ∈ reconcileInsert kept d) :
    x = d ∨ x ∈ kept := by
  unfold reconcileInsert at h
  split_ifs at h
  · rw [List.mem_cons] at h
    rcases h with h | h
    · exact Or.inl h
    · exact Or.inr (List.mem_of_mem_filter h)
  · exact Or.inr h

theorem reconcile_aux_subset (ds : List apriltag_detection)
    (acc : List apriltag_detection) (x : apriltag_detection)
    (h : x ∈ ds.foldl reconcileInsert acc) : x ∈ acc ∨ x ∈ ds := by
  induction ds generalizing acc with
  | nil => exact Or.inl h
  | cons a t ih =>
    rw [List.foldl_cons] at h
    rcases ih _ h with h2 | h2
    · rcases reconcileInsert_subset _ _ _ h2 with h3 | h3
      · exact Or.inr (h3 ▸ List.mem_cons_self a t)
      · exact Or.inl h3
    · exact Or.inr (List.mem_cons_of_mem a h2)

theorem reconcile_subset (ds : List apriltag_detection)
    (x : apriltag_detection) (h : x ∈ reconcile ds) : x ∈ ds := by
  rcases reconcile_aux_subset ds [] x h with h2 | h2
  · exact absurd h2 (List.not_mem_nil x)
  · exact h2

theorem reconcileInsert_pairwise (kept : List apriltag_detection)
    (d : apriltag_detection)
    (hp : kept.Pairwise (fun a b => ¬ sameTag a b)) :
    (reconcileInsert kept d).Pairwise (fun a b => ¬ sameTag a b) := by
  unfold reconcileInsert
  split_ifs
  · refine List.Pairwise.cons ?_ (hp.sublist (List.filter_sublist kept))
    intro k hk
    rw [List.mem_filter, Bool.not_eq_true', decide_eq_false_iff_not] at hk
    exact fun hdk => hk.2 (sameTag_symm hdk)
  · exact hp

theorem reconcile_pairwise (ds : List apriltag_detection) :
    (reconcile ds).Pairwise (fun a b => ¬ sameTag a b) := by
  have aux : ∀ acc : List apriltag_detection,
      acc.Pairwise (fun a b => ¬ sameTag a b) →
      (ds.foldl reconcileInsert acc).Pairwise (fun a b => ¬ sameTag a b) := by
    induction ds with
    | nil => exact fun acc hacc => hacc
    | cons a t ih =>
      intro acc hacc
      rw [List.foldl_cons]
      exact ih _ (reconcileInsert_pairwise acc a hacc)
  exact aux [] List.Pairwise.nil

/-- Modelled from the spec: the deterministic output order of the
Assembler (§4.7) — by family name, then id, then center coordinates. -/
def detLE (a b : apriltag_detection) : Prop :=
  a.family.name < b.family.name ∨ (a.family.name = b.family.name ∧
    (a.id < b.id ∨ (a.id = b.id ∧
      (a.c.1 < b.c.1 ∨ (a.c.1 = b.c.1 ∧ a.c.2 ≤ b.c.2)))))

instance detLE.dec : DecidableRel detLE := fun a b =>
  decidable_of_iff
    (a.family.name < b.family.name ∨ (a.family.name = b.family.name ∧
      (a.id < b.id ∨ (a.id = b.id ∧
        (a.c.1 < b.c.1 ∨ (a.c.1 = b.c.1 ∧ a.c.2 ≤ b.c.2))))))
    Iff.rfl

/-- Modelled from the spec: the Detection Assembler (§4.7) —
deduplication followed by the final deterministic stable sort. -/
def assembleDetections (ds : List apriltag_detection) :
    List apriltag_detection :=
  List.insertionSort detLE (reconcile ds)

/-- Modelled from the spec: `apriltag_detector_detect` of `apriltag.h`
(§2, §7): aborts (`none`) exactly on the input-level precondition
violation of a zero-dimension image; otherwise runs the full pipeline and
returns the assembled detection list — empty, but present, when the image
contains no valid markers.  Intermediate candidate failures (small
clusters, bad quads, singular homographies, decodes beyond the Hamming
bound) only contribute zero output items. -/
def apriltag_detector_detect (td : apriltag_detector)
    (im_orig : image_u8) : Option (List apriltag_detection) :=
  if im_orig.width = 0 ∨ im_orig.height = 0 then none
  else some (assembleDetections (detectRaw td im_orig))

/-! ## Caller-visible memory model of family ownership (§3)

`apriltag.h` documents that removing families, clearing the registry,
destroying the detector and destroying detections never deallocate the
caller's `apriltag_family_t` objects.  This is stated over an explicit
caller-visible state: the heap of allocated families, the allocated
detection records, and the detector, whose registry references families
by address (non-owning). -/

/-- The caller's heap of allocated `apriltag_family_t` objects, keyed by
address. -/
abbrev FamilyHeap := List (Nat × apriltag_family)

/-- A detector's registry as it sits in memory: (family address,
max-correctable-bits) pairs — non-owning references. -/
structure apriltag_detector_mem where
  tag_families : List (Nat × Nat)
deriving DecidableEq, Repr

/-- The caller-visible state: family heap, allocated detection records
(by address), and the detector (`none` once destroyed). -/
structure DetectorWorld where
  families : FamilyHeap
  detections : List Nat
  det : Option apriltag_detector_mem
deriving DecidableEq, Repr

/-- Modelled from the spec: `apriltag_detector_remove_family` — removes
the family's entries from the registry; per `apriltag.h` it "does not
deallocate the family". -/
def apriltag_detector_remove_family (w : DetectorWorld) (famAddr : Nat) :
    DetectorWorld :=
  { w with det := w.det.map (fun d =>
      { d with tag_families := List.filter (fun e => e.1 ≠ famAddr) d.tag_families }) }

/-- Modelled from the spec: `apriltag_detector_clear_families` —
unregisters all families "but does not deallocate the underlying tag
family objects" (`apriltag.h`). -/
def apriltag_detector_clear_families (w : DetectorWorld) : DetectorWorld :=
  { w with det := w.det.map (fun d => { d with tag_families := [] }) }

/-- Modelled from the spec: `apriltag_detector_destroy` — destroys the
detector "but not the underlying apriltag_family_t used to initialize
it" (`apriltag.h`). -/
def apriltag_detector_destroy (w : DetectorWorld) : DetectorWorld :=
  { w with det := none }

/-- Modelled from the spec: `apriltag_detection_destroy` — releases one
detection record (the family pointer inside it is "not freed",
`apriltag.h`). -/
def apriltag_detection_destroy (w : DetectorWorld) (detAddr : Nat) :
    DetectorWorld :=
  { w with detections := w.detections.filter (fun a => a ≠ detAddr) }

/-! ## Pipeline invariants -/

theorem mem_fitQuadsProv_ccw (qtp : apriltag_quad_thresh_params)
    (imw : image_u8) (cq : Nat × quad) (h : cq ∈ fitQuadsProv qtp imw) :
    0 < area2 cq.2.p := by
  unfold fitQuadsProv at h
  rw [List.mem_filterMap] at h
  obtain ⟨ic, _, hmap⟩ := h
  rw [Option.map_eq_some'] at hmap
  obtain ⟨q, hfit, hq⟩ := hmap
  subst hq
  exact fit_quad_ccw qtp ic.2 q hfit

theorem scaleQuad_ccw (qd : ℚ) (q : quad) (hqd : 1 < qd)
    (h : 0 < area2 q.p) :
    0 < area2 (scaleQuad ((Rat.floor qd).toNat : ℚ) q).p := by
  have h1 : (1 : ℤ) ≤ Rat.floor qd := Rat.le_floor.mpr (by exact_mod_cast hqd.le)
  have h2 : 1 ≤ (Rat.floor qd).toNat := by omega
  have h3 : (0 : ℚ) < ((Rat.floor qd).toNat : ℚ) := by exact_mod_cast h2
  show 0 < area2 (scaleP4 ((Rat.floor qd).toNat : ℚ) q.p)
  rw [area2_scaleP4]
  exact mul_pos (pow_pos h3 2) h

theorem mem_detectQuadsProv_ccw (td : apriltag_detector) (im : image_u8)
    (cq : Nat × quad) (h : cq ∈ detectQuadsProv td im) :
    0 < area2 cq.2.p := by
  unfold detectQuadsProv at h
  simp only [] at h
  split_ifs at h with hg hdec hdec2
  · -- refined, decimated
    unfold refine_edges_stage at h
    rw [List.mem_map] at h
    obtain ⟨cq0, hcq0, rfl⟩ := h
    rw [List.mem_map] at hcq0
    obtain ⟨cq1, hcq1, rfl⟩ := hcq0
    exact refine_edges_quad_ccw im _ (scaleQuad_ccw td.quad_decimate cq1.2 hdec
      (mem_fitQuadsProv_ccw _ _ _ hcq1))
  · -- the gating condition contains decimation > 1
    exact absurd hg.2 hdec
  · -- unrefined, decimated
    rw [List.mem_map] at h
    obtain ⟨cq1, hcq1, rfl⟩ := h
    exact scaleQuad_ccw td.quad_decimate cq1.2 hdec2
      (mem_fitQuadsProv_ccw _ _ _ hcq1)
  · exact mem_fitQuadsProv_ccw _ _ _ h

theorem mem_detectQuads_ccw (td : apriltag_detector) (im : image_u8)
    (q : quad) (h : q ∈ detectQuads td im) : 0 < area2 q.p := by
  unfold detectQuads at h
  rw [List.mem_filterMap] at h
  obtain ⟨q0, hq0, hupd⟩ := h
  unfold quad_update_homographies at hupd
  rw [Option.map_eq_some'] at hupd
  obtain ⟨hh, _, hq⟩ := hupd
  subst hq
  rw [List.mem_map] at hq0
  obtain ⟨cq, hcq, rfl⟩ := hq0
  exact mem_detectQuadsProv_ccw td im cq hcq

/-- Every detection of a successful `apriltag_detector_detect` call comes
from a successful decode of one of the pipeline's quads against one
registered family entry. -/
theorem mem_detect_getD (td : apriltag_detector) (im : image_u8)
    (d : apriltag_detection)
    (h : d ∈ (apriltag_detector_detect td im).getD []) :
    ∃ q ∈ detectQuads td im, ∃ e ∈ td.tag_families,
      quad_decode td.decode_sharpening e.1 e.2 im q = some d := by
  unfold apriltag_detector_detect at h
  split_ifs at h with hz
  · exact absurd h (List.not_mem_nil d)
  · rw [Option.getD_some] at h
    unfold assembleDetections at h
    rw [(List.perm_insertionSort detLE _).mem_iff] at h
    have h2 := reconcile_subset _ _ h
    unfold detectRaw at h2
    rw [List.mem_flatMap] at h2
    obtain ⟨q, hq, hd2⟩ := h2
    rw [List.mem_filterMap] at hd2
    obtain ⟨e, he, hdec⟩ := hd2
    exact ⟨q, hq, e, he, hdec⟩

/-! ## Claim theorems -/

/-- C1: for every Detection in the array returned by
`apriltag_detector_detect`, its `hamming` field (number of corrected
bits) is at most the `bits_corrected` value registered for that
Detection's family via `apriltag_detector_add_family_bits`; this holds
for every input image — hence in particular for synthetic images with
injected bit-flip noise up to the configured bound. -/
theorem C1_detect_hamming_within_registered_bits
    (td : apriltag_detector) (im : image_u8) :
    ((apriltag_detector_detect td im).getD []).Forall
      (fun d => ∃ e ∈ td.tag_families, d.family = e.1 ∧ d.hamming ≤ e.2) := by
  rw [List.forall_iff_forall_mem]
  intro d hd
  obtain ⟨q, _, e, he, hdec⟩ := mem_detect_getD td im d hd
  obtain ⟨hfam, hle, _, _⟩ := quad_decode_spec _ _ _ _ _ _ hdec
  exact ⟨e, he, hfam, hle⟩

/-- C8: for every Detection returned by `apriltag_detector_detect`, the
`decision_margin` field is non-negative. -/
theorem C8_detect_decision_margin_nonneg
    (td : apriltag_detector) (im : image_u8) :
    ((apriltag_detector_detect td im).getD []).Forall
      (fun d => 0 ≤ d.decision_margin) := by
  rw [List.forall_iff_forall_mem]
  intro d hd
  obtain ⟨q, _, e, _, hdec⟩ := mem_detect_getD td im d hd
  obtain ⟨_, _, hm, _⟩ := quad_decode_spec _ _ _ _ _ _ hdec
  exact hm

/-- C5: for every Detection returned by `apriltag_detector_detect`, the
four corner points stored in its `p` field are in counter-clockwise
order around the tag. -/
theorem C5_detect_corners_ccw (td : apriltag_detector) (im : image_u8) :
    ((apriltag_detector_detect td im).getD []).Forall
      (fun d => ccwP4 d.p) := by
  rw [List.forall_iff_forall_mem]
  intro d hd
  obtain ⟨q, hq, e, _, hdec⟩ := mem_detect_getD td im d hd
  obtain ⟨_, _, _, H, r, _, hp, _⟩ := quad_decode_spec _ _ _ _ _ _ hdec
  unfold ccwP4
  rw [hp, area2_rotK]
  exact mem_detectQuads_ccw td im q hq

/-! ## Images with no valid markers (§7) -/

/-- Bounded uniformity: every in-range pixel has intensity `g`. -/
def uniformIm (im : image_u8) (g : Nat) : Prop :=
  ∀ x, x < im.width → ∀ y, y < im.height → im.pixel x y = g

theorem getD_range_map {β : Type} (f : Nat → β) (n i : Nat) (d : β)
    (h : i < n) : ((List.range n).map f).getD i d = f i := by
  rw [List.getD_eq_getElem?_getD, List.getElem?_map, List.getElem?_range h]
  rfl

theorem idx_lt (w h a b : Nat) (ha : a < h) (hb : b < w) :
    a * w + b < w * h := by
  calc a * w + b < a * w + w := by omega
    _ = (a + 1) * w := by ring
    _ ≤ h * w := Nat.mul_le_mul_right w (by omega)
    _ = w * h := Nat.mul_comm h w

theorem nbr_right_lt (w h i : Nat) (hi : i < w * h)
    (hx : i % w + 1 < w) : i + 1 < w * h := by
  have hw : 0 < w := by omega
  have hmod := Nat.div_add_mod i w
  have hy : i / w < h := by
    rw [Nat.div_lt_iff_lt_mul hw]
    calc i < w * h := hi
      _ = h * w := Nat.mul_comm w h
  have hcomm : (i / w) * w = w * (i / w) := Nat.mul_comm _ _
  have : i + 1 = (i / w) * w + (i % w + 1) := by omega
  rw [this]
  exact idx_lt w h (i / w) (i % w + 1) hy hx

theorem nbr_down_lt (w h i : Nat) (hi : i < w * h)
    (hy2 : i / w + 1 < h) : i + w < w * h := by
  have hw : 0 < w := by
    rcases Nat.eq_zero_or_pos w with h0 | h0
    · subst h0
      simp at hi
    · exact h0
  have hmod := Nat.div_add_mod i w
  have hx : i % w < w := Nat.mod_lt i hw
  have hcomm : (i / w + 1) * w = w * (i / w) + w := by ring
  have : i + w = (i / w + 1) * w + i % w := by omega
  rw [this]
  exact idx_lt w h (i / w + 1) (i % w) hy2 hx

theorem pixelC_uniform (im : image_u8) (g : Nat) (hu : uniformIm im g)
    (hw : 0 < im.width) (hh : 0 < im.height) (x y : Nat) :
    im.pixelC x y = g := by
  unfold image_u8.pixelC
  exact hu _ (by omega) _ (by omega)

theorem foldl_min_const (g a : Nat) (l : List Nat) (hne : l ≠ []) :
    l.foldl (fun acc (_ : Nat) => min acc g) a = min a g := by
  induction l generalizing a with
  | nil => exact absurd rfl hne
  | cons b t ih =>
    rw [List.foldl_cons]
    cases t with
    | nil => rfl
    | cons c u =>
      rw [ih _ (by simp)]
      rw [min_assoc, min_self]

theorem foldl_max_const (g a : Nat) (l : List Nat) (hne : l ≠ []) :
    l.foldl (fun acc (_ : Nat) => max acc g) a = max a g := by
  induction l generalizing a with
  | nil => exact absurd rfl hne
  | cons b t ih =>
    rw [List.foldl_cons]
    cases t with
    | nil => rfl
    | cons c u =>
      rw [ih _ (by simp)]
      rw [max_assoc, max_self]

theorem tileMin_uniform (im : image_u8) (g : Nat) (hu : uniformIm im g)
    (hw : 0 < im.width) (hh : 0 < im.height) (tx ty : Nat) :
    tileMin im tx ty = min 255 g := by
  unfold tileMin
  rw [List.foldl_ext _ (fun acc (_ : Nat) => min acc g) 255
    (fun a b _ => by rw [pixelC_uniform im g hu hw hh])]
  exact foldl_min_const g 255 _ (by simp)

theorem tileMax_uniform (im : image_u8) (g : Nat) (hu : uniformIm im g)
    (hw : 0 < im.width) (hh : 0 < im.height) (tx ty : Nat) :
    tileMax im tx ty = max 0 g := by
  unfold tileMax
  rw [List.foldl_ext _ (fun acc (_ : Nat) => max acc g) 0
    (fun a b _ => by rw [pixelC_uniform im g hu hw hh])]
  exact foldl_max_const g 0 _ (by simp)

theorem tileMinSmooth_uniform (im : image_u8) (g : Nat)
    (hu : uniformIm im g) (hw : 0 < im.width) (hh : 0 < im.height)
    (tx ty : Nat) : tileMinSmooth im tx ty = min 255 g := by
  unfold tileMinSmooth
  rw [List.foldl_ext _ (fun acc (_ : Nat) => min acc (min 255 g)) 255
    (fun a b _ => by rw [tileMin_uniform im g hu hw hh])]
  rw [foldl_min_const (min 255 g) 255 _ (by simp)]
  rw [← min_assoc, min_self]

theorem tileMaxSmooth_uniform (im : image_u8) (g : Nat)
    (hu : uniformIm im g) (hw : 0 < im.width) (hh : 0 < im.height)
    (tx ty : Nat) : tileMaxSmooth im tx ty = max 0 g := by
  unfold tileMaxSmooth
  rw [List.foldl_ext _ (fun acc (_ : Nat) => max acc (max 0 g)) 0
    (fun a b _ => by rw [tileMax_uniform im g hu hw hh])]
  rw [foldl_max_const (max 0 g) 0 _ (by simp)]
  rw [← max_assoc, max_self]

theorem threshPixel_uniform (qtp : apriltag_quad_thresh_params)
    (im : image_u8) (g : Nat) (hu : uniformIm im g) (hw : 0 < im.width)
    (hh : 0 < im.height) (x y : Nat) :
    threshPixel qtp im x y = threshPixel qtp im 0 0 := by
  unfold threshPixel
  rw [tileMinSmooth_uniform im g hu hw hh (x / 4) (y / 4),
    tileMaxSmooth_uniform im g hu hw hh (x / 4) (y / 4),
    tileMinSmooth_uniform im g hu hw hh 0 0,
    tileMaxSmooth_uniform im g hu hw hh 0 0,
    pixelC_uniform im g hu hw hh x y,
    pixelC_uniform im g hu hw hh 0 0]

theorem threshMapRaw_getD_const (qtp : apriltag_quad_thresh_params)
    (im : image_u8) (g : Nat) (hu : uniformIm im g) (hw : 0 < im.width)
    (hh : 0 < im.height) (i : Nat) (hi : i < im.width * im.height) :
    (threshMapRaw qtp im).getD i 0 = threshPixel qtp im 0 0 := by
  unfold threshMapRaw
  rw [getD_range_map _ _ _ _ hi]
  exact threshPixel_uniform qtp im g hu hw hh _ _

theorem deglitchMap_getD_const (t : List Nat) (w h : Nat) (t0 : Nat)
    (ht : ∀ j, j < w * h → t.getD j 0 = t0) (i : Nat) (hi : i < w * h) :
    (deglitchMap t w h).getD i 0 = t0 := by
  unfold deglitchMap
  rw [getD_range_map _ _ _ _ hi]
  have hw : 0 < w := by
    rcases Nat.eq_zero_or_pos w with h0 | h0
    · subst h0
      simp at hi
    · exact h0
  have hh : 0 < h := by
    rcases Nat.eq_zero_or_pos h with h0 | h0
    · subst h0
      simp at hi
    · exact h0
  have htm : ∀ x y, tmGet t w h x y = t0 := by
    intro x y
    unfold tmGet
    exact ht _ (idx_lt w h _ _ (by omega) (by omega))
  simp only [htm]
  split_ifs with hc
  · exfalso
    obtain ⟨hv, hall⟩ := hc
    rw [List.all_eq_true] at hall
    have h0 := hall 0 (by decide)
    simp only [Bool.or_eq_true, beq_iff_eq] at h0
    rcases h0 with h0 | h0
    · exact absurd h0 (by decide)
    · rcases hv with hv | hv <;> omega
  · rfl

theorem threshim_getD_const (qtp : apriltag_quad_thresh_params)
    (im : image_u8) (g : Nat) (hu : uniformIm im g) (hw : 0 < im.width)
    (hh : 0 < im.height) (i : Nat) (hi : i < im.width * im.height) :
    (threshim qtp im).getD i 0 = threshPixel qtp im 0 0 := by
  unfold threshim
  split_ifs
  · exact deglitchMap_getD_const _ _ _ _
      (fun j hj => threshMapRaw_getD_const qtp im g hu hw hh j hj) i hi
  · exact threshMapRaw_getD_const qtp im g hu hw hh i hi

theorem boundaryPts_const_nil (t : List Nat) (w h t0 : Nat)
    (ht : ∀ j, j < w * h → t.getD j 0 = t0) :
    boundaryPts t w h = [] := by
  unfold boundaryPts
  rw [List.flatMap_eq_nil_iff]
  intro i hi
  rw [List.mem_range] at hi
  dsimp only
  have hv : t.getD i 0 = t0 := ht i hi
  have c1 : ¬(t0 = 0 ∧ t0 = 255) := by omega
  have c2 : ¬(t0 = 255 ∧ t0 = 0) := by omega
  by_cases hr : i % w + 1 < w
  · have hv1 : t.getD (i + 1) 0 = t0 := ht _ (nbr_right_lt w h i hi hr)
    by_cases hd : i / w + 1 < h
    · have hvw : t.getD (i + w) 0 = t0 := ht _ (nbr_down_lt w h i hi hd)
      rw [if_pos hr, if_pos hd, hv, hv1, hvw, if_neg c1, if_neg c2,
        if_neg c1, if_neg c2]
      rfl
    · rw [if_pos hr, if_neg hd, hv, hv1, if_neg c1, if_neg c2]
      rfl
  · by_cases hd : i / w + 1 < h
    · have hvw : t.getD (i + w) 0 = t0 := ht _ (nbr_down_lt w h i hi hd)
      rw [if_neg hr, if_pos hd, hv, hvw, if_neg c1, if_neg c2]
      rfl
    · rw [if_neg hr, if_neg hd]
      rfl

theorem decimate_uniform (im : image_u8) (g f : Nat) (hu : uniformIm im g)
    (hw : 0 < im.width) (hh : 0 < im.height) :
    uniformIm (image_u8_decimate im f) g := by
  intro x hx y hy
  unfold image_u8_decimate at hx hy ⊢
  simp only at hx hy ⊢
  unfold image_u8.pixel
  simp only
  have hwp : 0 < im.width / f := by omega
  have hidx : y * (im.width / f) + x < im.width / f * (im.height / f) :=
    idx_lt _ _ _ _ hy hx
  rw [getD_range_map _ _ _ _ hidx]
  have hxm : (y * (im.width / f) + x) % (im.width / f) = x := by
    rw [Nat.add_comm, Nat.add_mul_mod_self_right]
    exact Nat.mod_eq_of_lt hx
  have hxd : (y * (im.width / f) + x) / (im.width / f) = y := by
    rw [Nat.add_comm, Nat.add_mul_div_right _ _ hwp, Nat.div_eq_of_lt hx]
    omega
  rw [hxm, hxd]
  exact pixelC_uniform im g hu hw hh _ _

theorem blur_uniform (im : image_u8) (g : Nat) (hu : uniformIm im g) :
    uniformIm (image_u8_blur im) g := by
  intro x hx y hy
  unfold image_u8_blur at hx hy ⊢
  simp only at hx hy ⊢
  unfold image_u8.pixel
  simp only
  have hw : 0 < im.width := by omega
  have hh : 0 < im.height := by omega
  have hidx : y * im.width + x < im.width * im.height := idx_lt _ _ _ _ hy hx
  rw [getD_range_map _ _ _ _ hidx]
  have hpix : ∀ k ∈ List.range 9,
      im.pixelC ((y * im.width + x) % im.width + k % 3 - 1)
        ((y * im.width + x) / im.width + k / 3 - 1) = g :=
    fun k _ => pixelC_uniform im g hu hw hh _ _
  rw [List.map_congr_left hpix]
  have : (List.range 9).map (fun _ => g) = List.replicate 9 g := by
    rw [show (fun (_ : Nat) => g) = Function.const Nat g from rfl, List.map_const]
    rfl
  rw [this, List.sum_replicate, smul_eq_mul]
  omega

theorem workingImage_uniform (qd qs : ℚ) (im : image_u8) (g : Nat)
    (hu : uniformIm im g) (hw : 0 < im.width) (hh : 0 < im.height) :
    uniformIm (workingImage qd qs im) g := by
  unfold workingImage
  split_ifs with h1 h2 h2
  · exact blur_uniform _ g (decimate_uniform im g _ hu hw hh)
  · exact decimate_uniform im g _ hu hw hh
  · exact blur_uniform _ g hu
  · exact hu

theorem gradient_clusters_uniform_nil (qtp : apriltag_quad_thresh_params)
    (imw : image_u8) (g : Nat) (hu : uniformIm imw g) :
    gradient_clusters imw (threshim qtp imw) = [] := by
  unfold gradient_clusters
  rcases Nat.eq_zero_or_pos imw.width with hw | hw
  · rw [boundaryPts_const_nil _ _ _ 0 (fun j hj => by
      rw [hw, Nat.zero_mul] at hj
      exact absurd hj (Nat.not_lt_zero j))]
    rfl
  · rcases Nat.eq_zero_or_pos imw.height with hh | hh
    · rw [boundaryPts_const_nil _ _ _ 0 (fun j hj => by
        rw [hh, Nat.mul_zero] at hj
        exact absurd hj (Nat.not_lt_zero j))]
      rfl
    · rw [boundaryPts_const_nil _ _ _ (threshPixel qtp imw 0 0)
        (fun j hj => threshim_getD_const qtp imw g hu hw hh j hj)]
      rfl

theorem detect_uniform_empty (td : apriltag_detector) (im : image_u8)
    (g : Nat) (hu : uniformIm im g) (hw : 0 < im.width)
    (hh : 0 < im.height) : apriltag_detector_detect td im = some [] := by
  have hq : detectQuadsProv td im = [] := by
    unfold detectQuadsProv
    have hfit : fitQuadsProv td.qtp
        (workingImage td.quad_decimate td.quad_sigma im) = [] := by
      unfold fitQuadsProv
      dsimp only
      rw [gradient_clusters_uniform_nil td.qtp _ g
        (workingImage_uniform td.quad_decimate td.quad_sigma im g hu hw hh)]
      rfl
    dsimp only
    rw [hfit]
    split_ifs <;> rfl
  unfold apriltag_detector_detect
  rw [if_neg (by omega : ¬(im.width = 0 ∨ im.height = 0))]
  have hqq : detectQuads td im = [] := by
    unfold detectQuads
    rw [hq]
    rfl
  have hraw : detectRaw td im = [] := by
    unfold detectRaw
    rw [hqq]
    rfl
  rw [hraw]
  rfl

/-- C4: when the input image contains no valid markers — here, an
arbitrary uniform (all-white or all-black, hence edge-free) image —
`apriltag_detector_detect` returns an empty but present (non-null)
detection array and reports success; moreover for every image satisfying
the input-level preconditions (positive dimensions) the call succeeds
with some detection array: intermediate candidate failures never abort
the call. -/
theorem C4_detect_empty_on_markerless (td : apriltag_detector)
    (im : image_u8) (hw : 0 < im.width) (hh : 0 < im.height) :
    (∃ ds, apriltag_detector_detect td im = some ds) ∧
      ∀ g : Nat, uniformIm im g →
        apriltag_detector_detect td im = some [] := by
  constructor
  · refine ⟨assembleDetections (detectRaw td im), ?_⟩
    unfold apriltag_detector_detect
    rw [if_neg (by omega : ¬(im.width = 0 ∨ im.height = 0))]
  · intro g hg
    exact detect_uniform_empty td im g hg hw hh

/-- C2: in the detection array returned by a single
`apriltag_detector_detect` call, no two Detections have the same family
and the same id unless they are genuinely distinct physical tags (centers
beyond the tolerance); and when the same physical tag reaches the
Assembler through two candidate decodes (same family and id, centers
within tolerance), exactly one Detection is produced, namely the one with
the higher decision margin — in either arrival order. -/
theorem C2_detect_deduplicates (td : apriltag_detector) (im : image_u8)
    (d1 d2 : apriltag_detection) (hs : sameTag d1 d2)
    (hm : d2.decision_margin < d1.decision_margin) :
    ((apriltag_detector_detect td im).getD []).Pairwise
        (fun a b => ¬ sameTag a b) ∧
      assembleDetections [d1, d2] = [d1] ∧
      assembleDetections [d2, d1] = [d1] := by
  refine ⟨?_, ?_, ?_⟩
  · unfold apriltag_detector_detect
    split_ifs with hz
    · exact List.Pairwise.nil
    · rw [Option.getD_some]
      unfold assembleDetections
      exact ((List.perm_insertionSort detLE _).pairwise_iff
        (fun h hxy => h (sameTag_symm hxy))).mpr
        (reconcile_pairwise (detectRaw td im))
  · unfold assembleDetections reconcile
    rw [List.foldl_cons, List.foldl_cons, List.foldl_nil]
    rw [show reconcileInsert [] d1 = [d1] from rfl]
    have e2 : reconcileInsert [d1] d2 = [d1] := by
      unfold reconcileInsert
      rw [if_neg]
      intro hcond
      rw [show [d1].filter (fun k => decide (sameTag k d2)) = [d1] by
        simp [List.filter_cons, hs]] at hcond
      rw [List.all_cons, List.all_nil, Bool.and_true,
        decide_eq_true_eq] at hcond
      exact absurd hcond (lt_asymm hm)
    rw [e2]
    rfl
  · unfold assembleDetections reconcile
    rw [List.foldl_cons, List.foldl_cons, List.foldl_nil]
    rw [show reconcileInsert [] d2 = [d2] from rfl]
    have hs2 : sameTag d2 d1 := sameTag_symm hs
    have e2 : reconcileInsert [d2] d1 = [d1] := by
      unfold reconcileInsert
      rw [if_pos]
      · rw [show [d2].filter (fun k => ! decide (sameTag k d1)) = [] by
          simp [List.filter_cons, hs2]]
      · rw [show [d2].filter (fun k => decide (sameTag k d1)) = [d2] by
          simp [List.filter_cons, hs2]]
        rw [List.all_cons, List.all_nil, Bool.and_true, decide_eq_true_eq]
        exact hm
    rw [e2]
    rfl

/-- C3: `apriltag_detector_detect` is deterministic and
thread-count-invariant — on a byte-identical input image and identical
configuration up to thread count, two calls return identical detection
sequences (equal as sets and in the same sort order; the embedding is
exact, so "up to numerical tolerance" is equality), and in particular the
set of (family name, id) pairs is identical regardless of `nthreads`. -/
theorem C3_detect_deterministic (td : apriltag_detector) (im : image_u8)
    (n1 n2 : Nat) :
    apriltag_detector_detect { td with nthreads := n1 } im =
      apriltag_detector_detect { td with nthreads := n2 } im ∧
    Option.map (List.map (fun d => (d.family.name, d.id)))
        (apriltag_detector_detect { td with nthreads := n1 } im) =
      Option.map (List.map (fun d => (d.family.name, d.id)))
        (apriltag_detector_detect { td with nthreads := n2 } im) := by
  have key : apriltag_detector_detect { td with nthreads := n1 } im =
      apriltag_detector_detect { td with nthreads := n2 } im := by
    cases td
    rfl
  exact ⟨key, by rw [key]⟩

/-- The quad stage before edge refinement: fitting on the working image
and scaling back to full resolution (§4.2–§4.3). -/
def unrefinedQuadsProv (td : apriltag_detector) (im : image_u8) :
    List (Nat × quad) :=
  let imw := workingImage td.quad_decimate td.quad_sigma im
  let fitted := fitQuadsProv td.qtp imw
  if 1 < td.quad_decimate then
    fitted.map (fun cq =>
      (cq.1, scaleQuad ((Rat.floor td.quad_decimate).toNat : ℚ) cq.2))
  else fitted

/-- C7: the edge-refinement stage never rejects a quad and never changes
which cluster a quad came from — it returns exactly one quad per input
quad (falling back to the unrefined quad when no stronger nearby gradient
is found) and preserves each quad's cluster tag; for every detector and
image, edge refinement runs exactly when `refine_edges` is non-zero and
decimation is greater than 1 (the quad stage is the refined stage under
that gate and the unrefined stage otherwise); and at `quad_decimate = 1`
the `refine_edges` option is ignored by the whole detection call. -/
theorem C7_refine_edges_total_and_gated (im : image_u8)
    (l : List (Nat × quad)) (td : apriltag_detector) :
    (refine_edges_stage im l).length = l.length ∧
    (refine_edges_stage im l).map Prod.fst = l.map Prod.fst ∧
    (∀ (td2 : apriltag_detector) (im2 : image_u8), detectQuadsProv td2 im2 =
      if td2.refine_edges ≠ 0 ∧ 1 < td2.quad_decimate then
        refine_edges_stage im2 (unrefinedQuadsProv td2 im2)
      else unrefinedQuadsProv td2 im2) ∧
    (td.quad_decimate = 1 → ∀ r : Int,
      apriltag_detector_detect { td with refine_edges := r } im =
        apriltag_detector_detect td im) := by
  refine ⟨?_, ?_, fun td2 im2 => rfl, ?_⟩
  · unfold refine_edges_stage
    rw [List.length_map]
  · unfold refine_edges_stage
    rw [List.map_map]
    rfl
  · intro h1 r
    cases td with
    | mk nt qd qs re ds db qtp fams =>
      simp only at h1
      subst h1
      simp only [apriltag_detector_detect, detectRaw, detectQuads,
        detectQuadsProv, lt_self_iff_false, and_false, if_false]

/-- C9: `apriltag_detector_remove_family`,
`apriltag_detector_clear_families`, `apriltag_detector_destroy` and
`apriltag_detection_destroy` leave the caller's `apriltag_family_t`
objects intact: none of them deallocates or modifies any family in the
caller's heap. -/
theorem C9_family_ops_preserve_families :
    (∀ (w : DetectorWorld) (famAddr : Nat),
      (apriltag_detector_remove_family w famAddr).families = w.families) ∧
    (∀ w : DetectorWorld,
      (apriltag_detector_clear_families w).families = w.families) ∧
    (∀ w : DetectorWorld,
      (apriltag_detector_destroy w).families = w.families) ∧
    (∀ (w : DetectorWorld) (detAddr : Nat),
      (apriltag_detection_destroy w detAddr).families = w.families) :=
  ⟨fun _ _ => rfl, fun _ => rfl, fun _ => rfl, fun _ _ => rfl⟩

/-- C10: `apriltag_detector_add_family td fam` is exactly
`apriltag_detector_add_family_bits td fam 2` — both leave the detector in
the same state, registering the family with max-correctable-bits 2. -/
theorem C10_add_family_is_add_family_bits_two (td : apriltag_detector)
    (fam : apriltag_family) :
    apriltag_detector_add_family td fam =
      apriltag_detector_add_family_bits td fam 2 ∧
    (apriltag_detector_add_family td fam).tag_families =
      td.tag_families ++ [(fam, 2)] :=
  ⟨rfl, rfl⟩

theorem mat3Mul_id_right (A : Mat3) : mat3Mul A mat3Id = A := by
  cases A
  simp only [mat3Mul, mat3Id, Mat3.mk.injEq]
  refine ⟨?_, ?_, ?_, ?_, ?_, ?_, ?_, ?_, ?_⟩ <;> ring

theorem projectPoint_mul (H R : Mat3) (u v u2 v2 : ℚ)
    (hR : matVec R ⟨u, v, 1⟩ = ⟨u2, v2, 1⟩) :
    projectPoint (mat3Mul H R) u v = projectPoint H u2 v2 := by
  unfold projectPoint
  rw [matVec_mul, hR]

theorem matVec_rot1 (u v u2 v2 : ℚ) (h1 : v = u2) (h2 : -u = v2) :
    matVec ⟨0, 1, 0, -1, 0, 0, 0, 0, 1⟩ ⟨u, v, 1⟩ = ⟨u2, v2, 1⟩ := by
  subst h1
  subst h2
  simp only [matVec, Vec3.mk.injEq]
  refine ⟨by ring, by ring, by ring⟩

theorem matVec_rot2 (u v u2 v2 : ℚ) (h1 : -u = u2) (h2 : -v = v2) :
    matVec ⟨-1, 0, 0, 0, -1, 0, 0, 0, 1⟩ ⟨u, v, 1⟩ = ⟨u2, v2, 1⟩ := by
  subst h1
  subst h2
  simp only [matVec, Vec3.mk.injEq]
  refine ⟨by ring, by ring, by ring⟩

theorem matVec_rot3 (u v u2 v2 : ℚ) (h1 : -v = u2) (h2 : u = v2) :
    matVec ⟨0, -1, 0, 1, 0, 0, 0, 0, 1⟩ ⟨u, v, 1⟩ = ⟨u2, v2, 1⟩ := by
  subst h1
  subst h2
  simp only [matVec, Vec3.mk.injEq]
  refine ⟨by ring, by ring, by ring⟩

/-- Every quad reaching the decoder carries a homography pair: `H` maps
the ideal corners to the quad's corners and `Hinv` is its exact inverse. -/
theorem mem_detectQuads_homography (td : apriltag_detector)
    (im : image_u8) (q : quad) (h : q ∈ detectQuads td im) :
    ∃ H Hinv, q.H = some H ∧ q.Hinv = some Hinv ∧
      projectPoint H (-1) 1 = some q.p.p0 ∧
      projectPoint H 1 1 = some q.p.p1 ∧
      projectPoint H 1 (-1) = some q.p.p2 ∧
      projectPoint H (-1) (-1) = some q.p.p3 ∧
      mat3Mul H Hinv = mat3Id := by
  unfold detectQuads at h
  rw [List.mem_filterMap] at h
  obtain ⟨q0, hq0, hupd⟩ := h
  unfold quad_update_homographies at hupd
  rw [Option.map_eq_some'] at hupd
  obtain ⟨hh, hcomp, hq⟩ := hupd
  subst hq
  obtain ⟨h0, h1, h2, h3, hinv⟩ :=
    homography_compute_spec q0.p hh.1 hh.2 hcomp
  exact ⟨hh.1, hh.2, rfl, rfl, h0, h1, h2, h3, hinv⟩

/-- C6: for every Quad that reaches the decoder, the homography `H` maps
the idealized tag-square corners (±1, ±1) to the quad's pixel corners and
`Hinv` is the matrix inverse of `H` (exactly, in this rational embedding,
hence within any numerical tolerance); and for every returned Detection,
its homography maps the idealized corners to the detection's stored
pixel corners. -/
theorem C6_homography_maps_corners (td : apriltag_detector)
    (im : image_u8) :
    (∀ q ∈ detectQuads td im, ∃ H Hinv, q.H = some H ∧ q.Hinv = some Hinv ∧
      projectPoint H (-1) 1 = some q.p.p0 ∧
      projectPoint H 1 1 = some q.p.p1 ∧
      projectPoint H 1 (-1) = some q.p.p2 ∧
      projectPoint H (-1) (-1) = some q.p.p3 ∧
      mat3Mul H Hinv = mat3Id) ∧
    ∀ d ∈ (apriltag_detector_detect td im).getD [],
      projectPoint d.H (-1) 1 = some d.p.p0 ∧
      projectPoint d.H 1 1 = some d.p.p1 ∧
      projectPoint d.H 1 (-1) = some d.p.p2 ∧
      projectPoint d.H (-1) (-1) = some d.p.p3 := by
  refine ⟨fun q hq => mem_detectQuads_homography td im q hq,
    fun d hd => ?_⟩
  obtain ⟨q, hq, e, _, hdec⟩ := mem_detect_getD td im d hd
  obtain ⟨_, _, _, H, r, hH, hp, hdH⟩ := quad_decode_spec _ _ _ _ _ _ hdec
  obtain ⟨H2, Hinv, hH2, _, h0, h1, h2, h3, _⟩ :=
    mem_detectQuads_homography td im q hq
  rw [hH, Option.some.injEq] at hH2
  subst hH2
  rw [hdH, hp]
  have h4 : r % 4 = 0 ∨ r % 4 = 1 ∨ r % 4 = 2 ∨ r % 4 = 3 := by omega
  rcases h4 with h4 | h4 | h4 | h4 <;> simp only [rotTagPow, rotK, h4]
  · rw [mat3Mul_id_right]
    exact ⟨h0, h1, h2, h3⟩
  · refine ⟨?_, ?_, ?_, ?_⟩
    · rw [projectPoint_mul _ _ _ _ 1 1 (matVec_rot1 _ _ _ _ (by norm_num)
        (by norm_num))]
      exact h1
    · rw [projectPoint_mul _ _ _ _ 1 (-1) (matVec_rot1 _ _ _ _ (by norm_num)
        (by norm_num))]
      exact h2
    · rw [projectPoint_mul _ _ _ _ (-1) (-1) (matVec_rot1 _ _ _ _
        (by norm_num) (by norm_num))]
      exact h3
    · rw [projectPoint_mul _ _ _ _ (-1) 1 (matVec_rot1 _ _ _ _ (by norm_num)
        (by norm_num))]
      exact h0
  · refine ⟨?_, ?_, ?_, ?_⟩
    · rw [projectPoint_mul _ _ _ _ 1 (-1) (matVec_rot2 _ _ _ _ (by norm_num)
        (by norm_num))]
      exact h2
    · rw [projectPoint_mul _ _ _ _ (-1) (-1) (matVec_rot2 _ _ _ _
        (by norm_num) (by norm_num))]
      exact h3
    · rw [projectPoint_mul _ _ _ _ (-1) 1 (matVec_rot2 _ _ _ _ (by norm_num)
        (by norm_num))]
      exact h0
    · rw [projectPoint_mul _ _ _ _ 1 1 (matVec_rot2 _ _ _ _ (by norm_num)
        (by norm_num))]
      exact h1
  · refine ⟨?_, ?_, ?_, ?_⟩
    · rw [projectPoint_mul _ _ _ _ (-1) (-1) (matVec_rot3 _ _ _ _
        (by norm_num) (by norm_num))]
      exact h3
    · rw [projectPoint_mul _ _ _ _ (-1) 1 (matVec_rot3 _ _ _ _ (by norm_num)
        (by norm_num))]
      exact h0
    · rw [projectPoint_mul _ _ _ _ 1 1 (matVec_rot3 _ _ _ _ (by norm_num)
        (by norm_num))]
      exact h1
    · rw [projectPoint_mul _ _ _ _ 1 (-1) (matVec_rot3 _ _ _ _ (by norm_num)
        (by norm_num))]
      exact h2

/-! ## Concrete witnesses

The `Rat` field operations are `@[irreducible]` in the library; for the
concrete evaluations below they are restored to their normal (semi-)
reducibility so that `decide` can compute with exact rationals. -/

set_option allowUnsafeReducibility true

attribute [local semireducible] Rat.add Rat.mul Rat.inv Rat.sub Rat.neg Rat.div

/-- Concrete tuning parameters (the original detector's defaults,
rationalized). -/
def qtpW : apriltag_quad_thresh_params := ⟨5, 10, 10 / 57, 98 / 100, 10, 5, 0⟩

/-- A concrete 4-bit toy tag family with the single codeword 0. -/
def famW : apriltag_family :=
  ⟨1, [0], 4, 6, false, 4, [2, 3, 2, 3], [2, 2, 3, 3], 4, "toy4"⟩

/-- A concrete detector with one registered family. -/
def tdW : apriltag_detector := ⟨1, 1, 0, 1, 1 / 4, 0, qtpW, [(famW, 2)]⟩

/-- A 4×4 all-white image. -/
def imW : image_u8 := ⟨4, 4, 4, List.replicate 16 255⟩

instance uniformIm.dec (im : image_u8) (g : Nat) :
    Decidable (uniformIm im g) :=
  decidable_of_iff
    (∀ x, x < im.width → ∀ y, y < im.height → im.pixel x y = g) Iff.rfl

/-- Witness for C4: at a concrete detector and a 4×4 all-white image, the
hypotheses hold and the call returns the empty detection array. -/
theorem C4_witness :
    (∃ ds, apriltag_detector_detect tdW imW = some ds) ∧
      ∀ g : Nat, uniformIm imW g →
        apriltag_detector_detect tdW imW = some [] :=
  C4_detect_empty_on_markerless tdW imW (by decide) (by decide)

/-- Sanity: the model is executable — the all-white image concretely
evaluates to a successful, empty detection array. -/
theorem detect_all_white_evaluates : apriltag_detector_detect tdW imW = some [] :=
  detect_uniform_empty tdW imW 255 (by decide) (by decide) (by decide)

/-- An axis-aligned square quad (corners listed in the ideal-corner
pairing order). -/
def qW : P4 := ⟨(0, 2), (2, 2), (2, 0), (0, 0)⟩

/-- The homography computed for `qW` (a translation by (1,1)). -/
def HW : Mat3 := ⟨1, 0, 1, 0, 1, 1, 0, 0, 1⟩

/-- Its inverse. -/
def HiW : Mat3 := ⟨1, 0, -1, 0, 1, -1, 0, 0, 1⟩

/-- Sanity witness for the homography estimator at the concrete quad
`qW`: it succeeds with `HW`/`HiW`, `HW` maps the ideal corners to the
quad corners, and the pair multiplies to the identity. -/
theorem homography_compute_square_evaluates :
    projectPoint HW (-1) 1 = some qW.p0 ∧
    projectPoint HW 1 1 = some qW.p1 ∧
    projectPoint HW 1 (-1) = some qW.p2 ∧
    projectPoint HW (-1) (-1) = some qW.p3 ∧
    mat3Mul HW HiW = mat3Id :=
  homography_compute_spec qW HW HiW (by decide)

/-- A concrete quad value. -/
def quadW : quad := ⟨qW, false, none, none⟩

/-- A detector with `quad_decimate = 1`. -/
def tdW1 : apriltag_detector := ⟨2, 1, 0, 1, 1 / 4, 0, qtpW, [(famW, 2)]⟩

/-- Witness for C7 at a concrete image, quad list and `quad_decimate = 1`
detector (the implication's hypothesis is discharged there). -/
theorem C7_witness :
    (refine_edges_stage imW [(3, quadW)]).length = [(3, quadW)].length ∧
    (refine_edges_stage imW [(3, quadW)]).map Prod.fst =
      [(3, quadW)].map Prod.fst ∧
    (∀ (td2 : apriltag_detector) (im2 : image_u8), detectQuadsProv td2 im2 =
      if td2.refine_edges ≠ 0 ∧ 1 < td2.quad_decimate then
        refine_edges_stage im2 (unrefinedQuadsProv td2 im2)
      else unrefinedQuadsProv td2 im2) ∧
    apriltag_detector_detect { tdW1 with refine_edges := 5 } imW =
      apriltag_detector_detect tdW1 imW :=
  ⟨(C7_refine_edges_total_and_gated imW [(3, quadW)] tdW1).1,
   (C7_refine_edges_total_and_gated imW [(3, quadW)] tdW1).2.1,
   (C7_refine_edges_total_and_gated imW [(3, quadW)] tdW1).2.2.1,
   (C7_refine_edges_total_and_gated imW [(3, quadW)] tdW1).2.2.2 rfl 5⟩

/-- A corner cycle for concrete detections. -/
def p4W : P4 := ⟨(0, 0), (2, 0), (2, 2), (0, 2)⟩

/-- A concrete detection with decision margin 1. -/
def dA : apriltag_detection := ⟨famW, 0, 0, 1, mat3Id, (0, 0), p4W⟩

/-- A concrete detection for the same physical tag (same family, same id,
center 1 pixel away) with the lower decision margin 0. -/
def dB : apriltag_detection := ⟨famW, 0, 1, 0, mat3Id, (1, 0), p4W⟩

/-- Witness for C2 at two concrete same-tag detections: the Assembler
keeps exactly the higher-margin one in either arrival order. -/
theorem C2_witness :
    ((apriltag_detector_detect tdW imW).getD []).Pairwise
        (fun a b => ¬ sameTag a b) ∧
      assembleDetections [dA, dB] = [dA] ∧
      assembleDetections [dB, dA] = [dA] :=
  C2_detect_deduplicates tdW imW dA dB (by decide) (by decide)


/-- An 8×8 synthetic image bearing one rendered toy tag: a black 4×4
square on white background. -/
def imE : image_u8 :=
  ⟨8, 8, 8, (List.range 64).map (fun i =>
    if 2 ≤ i % 8 ∧ i % 8 ≤ 5 ∧ 2 ≤ i / 8 ∧ i / 8 ≤ 5 then 0 else 255)⟩

set_option maxRecDepth 4000 in
set_option maxHeartbeats 8000000 in
/-- Sanity: the full modelled pipeline is executable end to end and
concretely detects the rendered toy tag — family "toy4", id 0, zero
corrected bits — so the universally quantified claim theorems above are
not vacuous. -/
theorem detect_synthetic_tag_evaluates :
    ((apriltag_detector_detect tdW imE).getD []).map
      (fun d => (d.family.name, d.id, d.hamming)) = [("toy4", 0, 0)] := by
  decide

/-- The concrete quad that reaches the decoder on the synthetic tag
image `imE` (with its computed homography pair). -/
def qE : quad :=
  ⟨⟨(11 / 2, 5), (2, 11 / 2), (3 / 2, 2), (5, 3 / 2)⟩, false,
   some ⟨-7 / 4, 1 / 4, 7 / 2, 1 / 4, 7 / 4, 7 / 2, 0, 0, 1⟩,
   some ⟨-14 / 25, 2 / 25, 42 / 25, 2 / 25, 14 / 25, -56 / 25, 0, 0, 1⟩⟩

/-- The concrete detection returned on the synthetic tag image `imE`. -/
def dE : apriltag_detection :=
  ⟨famW, 0, 0, 0, ⟨-7 / 4, 1 / 4, 7 / 2, 1 / 4, 7 / 4, 7 / 2, 0, 0, 1⟩,
   (7 / 2, 7 / 2), ⟨(11 / 2, 5), (2, 11 / 2), (3 / 2, 2), (5, 3 / 2)⟩⟩

set_option maxRecDepth 4000 in
set_option maxHeartbeats 8000000 in
/-- Witness for C6 at the concrete decoder-reaching quad and returned
detection of the synthetic tag image. -/
theorem C6_witness :
    (∃ H Hinv, qE.H = some H ∧ qE.Hinv = some Hinv ∧
      projectPoint H (-1) 1 = some qE.p.p0 ∧
      projectPoint H 1 1 = some qE.p.p1 ∧
      projectPoint H 1 (-1) = some qE.p.p2 ∧
      projectPoint H (-1) (-1) = some qE.p.p3 ∧
      mat3Mul H Hinv = mat3Id) ∧
    (projectPoint dE.H (-1) 1 = some dE.p.p0 ∧
      projectPoint dE.H 1 1 = some dE.p.p1 ∧
      projectPoint dE.H 1 (-1) = some dE.p.p2 ∧
      projectPoint dE.H (-1) (-1) = some dE.p.p3) :=
  ⟨(C6_homography_maps_corners tdW imE).1 qE (by decide),
   (C6_homography_maps_corners tdW imE).2 dE (by decide)⟩
